import Mathlib

/-!
Verification of the section-dependency scheduler and deduplication or
reconciliation engine of the ritivel/cline repository.

The Python sources under `src/sec53_files` and `src/section25` are shallowly
embedded below.  Pure string manipulation is modelled on `List Char` via
`String.data` (Python's `str` methods work on code points, as does `List Char`;
the embedding treats the `\d`, `\s` and `\w` regular-expression classes as
their ASCII subsets, which is the only form appearing in the data the
pipeline handles).  Stateful loops are modelled as structural recursions or
folds, file and network I/O is cut at the function boundary (the callers pass
the file contents or the call outcomes in), and each Python `dict` keyed by
section id is modelled as an association list in insertion order, which is
exactly the iteration order Python guarantees.
-/

/-! ## Python string primitives -/

/-- Python whitespace characters recognised by `str.strip` / `str.split`
(ASCII subset). -/
def pyWhitespace : List Char := [' ', '\t', '\n', '\r', '\x0b', '\x0c']

def isPyWs (c : Char) : Bool := pyWhitespace.contains c

/-- `str.strip()` on a character list. -/
def trimChars (l : List Char) : List Char :=
  ((l.dropWhile isPyWs).reverse.dropWhile isPyWs).reverse

/-- `str.strip()`. -/
def pyStrip (s : String) : String := ⟨trimChars s.data⟩

/-- `str.lower()` (ASCII). -/
def pyLower (s : String) : String := ⟨s.data.map Char.toLower⟩

/-- Does `p` occur as a prefix of `l`? -/
def prefixAt : List Char → List Char → Bool
  | [], _ => true
  | _ :: _, [] => false
  | a :: as, b :: bs => a == b && prefixAt as bs

/-- Does `p` occur as a contiguous sublist of `l`?  Models Python's
`p in s` on strings. -/
def subAt : List Char → List Char → Bool
  | p, [] => prefixAt p []
  | p, l@(_ :: t) => prefixAt p l || subAt p t

/-- Python `pat in s`. -/
def strContains (s pat : String) : Bool := subAt pat.data s.data

/-- Number of positions of `l` (including the final empty suffix) at which
`p` occurs; for a non-empty `p` this is the number of (possibly
overlapping) occurrences of `p` in `l`. -/
def occCount : List Char → List Char → Nat
  | p, [] => if prefixAt p [] then 1 else 0
  | p, l@(_ :: t) => (if prefixAt p l then 1 else 0) + occCount p t

/-- Occurrence count of a pattern string in `s`. -/
def strOccCount (s pat : String) : Nat := occCount pat.data s.data

/-- Python `s.startswith(pat)`. -/
def pyStartsWith (s pat : String) : Bool := prefixAt pat.data s.data

/-- `str.split(sep)` for a single-character separator, on character lists. -/
def splitChar (sep : Char) : List Char → List (List Char)
  | [] => [[]]
  | a :: t =>
    match splitChar sep t with
    | [] => [[a]]
    | r :: rs => if a == sep then [] :: r :: rs else (a :: r) :: rs

/-- Python `content.split('\n')`. -/
def pySplitNl (s : String) : List String := (splitChar '\n' s.data).map String.mk

/-- Python `'\n'.join(ls)`. -/
def joinNl : List String → String
  | [] => ""
  | [x] => x
  | x :: rest => x ++ "\n" ++ joinNl rest

/-- Python `s.split()` (split on whitespace runs, dropping empty pieces);
only its length (`word_count`) is consumed by the quality rubric. -/
def pySplitWsChars : List Char → List (List Char)
  | [] => []
  | c :: t =>
    if isPyWs c then pySplitWsChars t
    else
      match pySplitWsChars t with
      | [] => [[c]]
      | r :: rs =>
        match t with
        | [] => [[c]]
        | t0 :: _ => if isPyWs t0 then [c] :: r :: rs else (c :: r) :: rs

def pyWordCount (s : String) : Nat := (pySplitWsChars s.data).length

/-- First-match lookup in an association list: Python `d.get(k)` for a dict
built in insertion order with distinct keys. -/
def alookup {α : Type} (m : List (String × α)) (k : String) : Option α :=
  (m.find? (fun p => p.1 == k)).map (fun p => p.2)

/-! ## `Paper` records (src/sec53_files/multi_agent_research.py)

A paper is a JSON object produced by the search agents.  The fields the
code under verification reads are `title`, `url` and `also_relevant_to`;
everything else is carried opaquely. -/

structure Paper where
  title : Option String := none
  url : Option String := none
  also_relevant_to : Option (List String) := none
  otherFields : List (String × String) := []
deriving DecidableEq, Repr, Inhabited

/-- Placeholder sentinels tested by the validity filters
(`["...", ".", "-", ""]`). -/
def placeholderSentinels : List String := ["...", ".", "-", ""]

/-- `is_valid_paper` (multi_agent_research.py lines 781-797; verbatim twin
at lines 854-864 inside `save_section_results`).  The `not isinstance(paper,
dict)` guard is vacuous here because `Paper` is the dict shape. -/
def is_valid_paper (paper : Paper) : Bool :=
  let title := pyStrip (paper.title.getD "")
  if title == "" || placeholderSentinels.contains title then false
  else
    let url := pyStrip (paper.url.getD "")
    if url == "" || placeholderSentinels.contains url || !(pyStartsWith url "http") then false
    else true

/-- `filter_valid_papers` (multi_agent_research.py lines 799-803). -/
def filter_valid_papers (papers : List Paper) : List Paper :=
  papers.filter is_valid_paper

/-- The `papers` array that `save_section_results`
(multi_agent_research.py lines 849-886) writes into the per-section JSON
file: the input list filtered through its local `is_valid_paper`.  The
file-system write itself is I/O and outside the embedding. -/
def save_section_results_papers (papers : List Paper) : List Paper :=
  papers.filter is_valid_paper

/-! ## Quality rubric (src/section25/multi_agent_section_writer.py) -/

/-- `QUALITY_THRESHOLDS` (multi_agent_section_writer.py lines 42-48). -/
def QUALITY_THRESHOLDS_min_length : Nat := 500

def QUALITY_THRESHOLDS_max_length : Nat := 50000

def QUALITY_THRESHOLDS_min_sections : Nat := 1

def QUALITY_THRESHOLDS_required_elements : List String := ["\\section", "\\label"]

structure QualityReport where
  is_valid : Bool
  score : Int
  issues : List String
  suggestions : List String
  latex_errors : List String
  citation_count : Nat
  section_count : Nat
  word_count : Nat
deriving DecidableEq, Repr

/-! ### Regular-expression scanners

`re.findall` counts are modelled by a generic non-overlapping left-to-right
scan: a matcher returns the length of the match starting at the given suffix
(`none` when no match starts there); on a match the scan resumes after it,
otherwise it advances one character — exactly `re`'s scanning discipline. -/

def lbrace : Char := Char.ofNat 123

def rbrace : Char := Char.ofNat 125

def countMatchesFuel (f : List Char → Option Nat) : Nat → List Char → Nat
  | 0, _ => 0
  | _ + 1, [] => 0
  | fuel + 1, c :: cs =>
    match f (c :: cs) with
    | some n => 1 + countMatchesFuel f fuel (cs.drop (n - 1))
    | none => countMatchesFuel f fuel cs

/-- Every scan step consumes at least one character, so `l.length` steps of
fuel always run the scan to completion. -/
def countMatches (f : List Char → Option Nat) (l : List Char) : Nat :=
  countMatchesFuel f l.length l

/-- Tail of a match of `[^}]+\}` (a non-empty run of non-`}` characters and
the closing brace); returns the number of characters consumed.  The greedy
run plus the closing-brace requirement is exactly the backtracking-free
reading of the pattern, since `[^}]` can never consume the `}`. -/
def matchBraceArg (l : List Char) : Option Nat :=
  let run := (l.takeWhile (fun c => c != rbrace)).length
  if 0 < run && run < l.length then some (run + 1) else none

/-- ASCII `\w`. -/
def isWordChar (c : Char) : Bool := c.isAlphanum || c == '_'

/-- Tail of a match of `(\w+)\}`: as `matchBraceArg` but the run must be
word characters and the next character must literally be `}`. -/
def matchWordArg (l : List Char) : Option Nat :=
  let run := (l.takeWhile isWordChar).length
  if 0 < run && prefixAt [rbrace] (l.drop run) then some (run + 1) else none

/-- Literal prefix followed by a tail matcher. -/
def matchLit (lit : List Char) (k : List Char → Option Nat) (l : List Char) : Option Nat :=
  if prefixAt lit l then (k (l.drop lit.length)).map (fun n => n + lit.length) else none

/-- The citation pattern `\\cite\{[^}]+\}` (line 1113). -/
def matchCite : List Char → Option Nat :=
  matchLit ("\\cite".data ++ [lbrace]) matchBraceArg

/-- The section pattern `\\(section|subsection|subsubsection)\{[^}]+\}`
(line 1123); the three alternatives are mutually exclusive as prefixes, so
ordered trial is faithful to the regex's alternation. -/
def matchSectionCmd (l : List Char) : Option Nat :=
  match matchLit ("\\section".data ++ [lbrace]) matchBraceArg l with
  | some n => some n
  | none =>
    match matchLit ("\\subsection".data ++ [lbrace]) matchBraceArg l with
    | some n => some n
    | none => matchLit ("\\subsubsection".data ++ [lbrace]) matchBraceArg l

/-- `\\begin\{(\w+)\}` (line 1154). -/
def matchBeginEnv : List Char → Option Nat :=
  matchLit ("\\begin".data ++ [lbrace]) matchWordArg

/-- `\\end\{(\w+)\}` (line 1155). -/
def matchEndEnv : List Char → Option Nat :=
  matchLit ("\\end".data ++ [lbrace]) matchWordArg

/-- The characters of the class `[%&$#_]` (line 1161). -/
def latexSpecials : List Char := ['%', '&', '$', '#', '_']

/-- All matches of `(?<!\\)([%&$#_])` in order: a special character not
preceded by a backslash (`prev` is the preceding character, if any). -/
def unescapedSpecials : Option Char → List Char → List Char
  | _, [] => []
  | prev, c :: rest =>
    (if latexSpecials.contains c && prev != some '\\' then [c] else []) ++
      unescapedSpecials (some c) rest

/-- Whether `(?<!\$)\d+%(?!\$)` matches somewhere (line 1169): after the
greedy maximal digit run from this position comes `%` and then no `$`. -/
def mathPctAfterRun (l : List Char) : Bool :=
  match l.drop (l.takeWhile Char.isDigit).length with
  | [] => false
  | c :: rest =>
    c == '%' &&
      (match rest with
       | [] => true
       | d :: _ => d != '$')

def mathPctHit : Option Char → List Char → Bool
  | _, [] => false
  | prev, c :: rest =>
    (c.isDigit && prev != some '$' && mathPctAfterRun (c :: rest)) ||
      mathPctHit (some c) rest

/-- Maximal word-character runs (the only way `\b[A-Z]{2,6}\b` can match is
that a whole such token is 2-6 uppercase letters). -/
def wordTokens : List Char → List (List Char)
  | [] => []
  | c :: t =>
    if isWordChar c then
      (c :: t.takeWhile isWordChar) :: wordTokens (t.drop (t.takeWhile isWordChar).length)
    else wordTokens t
termination_by l => l.length
decreasing_by
  · simp only [List.length_drop, List.length_cons]
    omega
  · simp

/-! ### `validate_latex_quality` (multi_agent_section_writer.py lines 1066-1216)

Each check is a named helper so every deduction can be traced to its source
line.  Issue/suggestion strings keep the constant part of the corresponding
Python message; interpolated values (and the parts whose order depends on
Python `set` iteration) are dropped — they feed no control flow. -/

/-- Lines 1102-1105. -/
def ded_min_length (content_length : Nat) : Int :=
  if content_length < QUALITY_THRESHOLDS_min_length then 20 else 0

/-- Lines 1108-1110. -/
def ded_max_length (content_length : Nat) : Int :=
  if content_length > QUALITY_THRESHOLDS_max_length then 10 else 0

/-- Lines 1117-1120. -/
def ded_citations (citation_count expected_citations : Nat) : Int :=
  if citation_count < expected_citations then 15 else 0

/-- Lines 1127-1130. -/
def ded_sections (section_count : Nat) : Int :=
  if section_count < QUALITY_THRESHOLDS_min_sections then 15 else 0

/-- Lines 1133-1137: the required elements absent from the content. -/
def missingElements (s : String) : List String :=
  QUALITY_THRESHOLDS_required_elements.filter (fun e => !strContains s e)

def ded_required (s : String) : Int := 10 * (missingElements s).length

/-- Lines 1140-1143. -/
def labelMissing (s : String) : Bool :=
  strContains s "\\section" && !strContains s "\\label"

def ded_label (s : String) : Int := if labelMissing s then 10 else 0

/-- Lines 1147-1151. -/
def braceImbalance (s : String) : Bool :=
  s.data.count lbrace != s.data.count rbrace

def ded_braces (s : String) : Int := if braceImbalance s then 20 else 0

/-- Lines 1154-1158. -/
def envImbalance (s : String) : Bool :=
  countMatches matchBeginEnv s.data != countMatches matchEndEnv s.data

def ded_env (s : String) : Int := if envImbalance s then 15 else 0

/-- Lines 1161-1166: an unescaped special somewhere, and one among the
first 1000 characters (the `findall` is over `latex_content[:1000]`). -/
def specialHit (s : String) : Bool :=
  unescapedSpecials none s.data != [] &&
    unescapedSpecials none (s.data.take 1000) != []

def ded_special (s : String) : Int := if specialHit s then 5 else 0

/-- Lines 1173-1176. -/
def itemMisuse (s : String) : Bool :=
  strContains s "\\item" &&
    !(strContains s ("\\begin" ++ String.mk [lbrace] ++ "itemize" ++ String.mk [rbrace]) ||
      strContains s ("\\begin" ++ String.mk [lbrace] ++ "enumerate" ++ String.mk [rbrace]))

def ded_item (s : String) : Int := if itemMisuse s then 10 else 0

/-- Line 1180. -/
def promotionalWords : List String :=
  ["breakthrough", "revolutionary", "best", "guaranteed", "miracle"]

/-- Lines 1181-1185. -/
def foundPromotional (s : String) : List String :=
  promotionalWords.filter (fun w => strContains (pyLower s) (pyLower w))

def ded_promotional (s : String) : Int := if foundPromotional s != [] then 10 else 0

/-- Lines 1188-1199 (suggestion only, no deduction): word tokens of 2-6
uppercase letters, deduplicated, outside the allow list and never followed
by a parenthesised definition. -/
def undefinedAbbrs (s : String) : List String :=
  (((wordTokens s.data).filter
      (fun tk => 2 ≤ tk.length && tk.length ≤ 6 && tk.all Char.isUpper)).map
        String.mk).dedup.filter
    (fun a => !(["ICH", "FDA", "EMA", "PMID", "N/A"].contains a) &&
      !strContains s ("(" ++ a ++ ")"))

/-- The running score: 100 minus every deduction, clamped at 0 (line 1202). -/
def rubricScore (s : String) (expected_citations : Nat) : Int :=
  max 0 (100
    - ded_min_length s.data.length - ded_max_length s.data.length
    - ded_citations (countMatches matchCite s.data) expected_citations
    - ded_sections (countMatches matchSectionCmd s.data)
    - ded_required s - ded_label s - ded_braces s - ded_env s
    - ded_special s - ded_item s - ded_promotional s)

def validate_latex_quality (latex_content : String) (_section_id : String)
    (expected_citations : Nat := 3) : QualityReport :=
  if latex_content == "" || pyStrip latex_content == "" then
    { is_valid := false, score := 0, issues := ["Empty content"],
      suggestions := ["Generate content"], latex_errors := [],
      citation_count := 0, section_count := 0, word_count := 0 }
  else
    let content_length := latex_content.data.length
    let citation_count := countMatches matchCite latex_content.data
    let section_count := countMatches matchSectionCmd latex_content.data
    let score := rubricScore latex_content expected_citations
    let latex_errors :=
      (if braceImbalance latex_content then ["Unbalanced braces"] else []) ++
      (if envImbalance latex_content then ["Unbalanced environments"] else []) ++
      (if itemMisuse latex_content then
        ["\\item used without itemize or enumerate environment"] else [])
    { is_valid := decide (60 ≤ score) && latex_errors.isEmpty,
      score := score,
      issues :=
        (if content_length < QUALITY_THRESHOLDS_min_length then
          ["Content too short"] else []) ++
        (if content_length > QUALITY_THRESHOLDS_max_length then
          ["Content too long, may cause context issues"] else []) ++
        (if citation_count < expected_citations then ["Low citation count"] else []) ++
        (if section_count < QUALITY_THRESHOLDS_min_sections then
          ["Missing section structure"] else []) ++
        (missingElements latex_content).map
          (fun e => "Missing required LaTeX element: " ++ e) ++
        (if labelMissing latex_content then
          ["Section without \\label - cross-referencing will not work"] else []) ++
        (if specialHit latex_content then
          ["Possible unescaped special characters"] else []) ++
        (if foundPromotional latex_content != [] then
          ["Promotional language detected"] else []),
      suggestions :=
        (if content_length < QUALITY_THRESHOLDS_min_length then
          ["Expand content with more details and explanations"] else []) ++
        (if citation_count < expected_citations then
          ["Add more citations to support scientific claims"] else []) ++
        (if section_count < QUALITY_THRESHOLDS_min_sections then
          ["Add proper section and subsection structure"] else []) ++
        (missingElements latex_content).map
          (fun e => "Add " ++ e ++ " command to the content") ++
        (if labelMissing latex_content then
          ["Add \\label after each section command"] else []) ++
        (if mathPctHit none latex_content.data then
          ["Consider using math mode for percentages"] else []) ++
        (if foundPromotional latex_content != [] then
          ["Use objective, scientific language instead of promotional terms"] else []) ++
        (if 3 < (undefinedAbbrs latex_content).length then
          ["Consider defining abbreviations on first use"] else []),
      latex_errors := latex_errors,
      citation_count := citation_count,
      section_count := section_count,
      word_count := pyWordCount latex_content }

/-! ### `should_refine` (multi_agent_section_writer.py lines 1836-1853)

The graph state's `quality_report` and `revision_count` entries are the
inputs; `state.get` defaults (score 0, is_valid False, latex_errors [])
apply when the quality report is absent. -/

def should_refine (quality_report : Option QualityReport) (revision_count : Nat) : String :=
  let score : Int := match quality_report with | some q => q.score | none => 0
  let is_valid : Bool := match quality_report with | some q => q.is_valid | none => false
  let has_errors : Bool :=
    match quality_report with | some q => decide (0 < q.latex_errors.length) | none => false
  if revision_count ≥ 2 then "end"
  else if !is_valid || score < 70 || has_errors then "refine"
  else "end"

/-- `l.contains a` agrees with list membership (lawful `BEq`). -/
theorem contains_true_iff {α : Type} [BEq α] [LawfulBEq α] (l : List α) (a : α) :
    l.contains a = true ↔ a ∈ l := by
  induction l with
  | nil => simp
  | cons b t ih => simp [List.contains_cons, ih]

/-! ## Theorems: refinement gate (C8) and paper validity (C5) -/

/-- **C8.** The writing pipeline enters the refining state exactly when
`revision_count < 2` and (the report is not valid, or its score is below 70,
or its structural LaTeX error list is non-empty); otherwise it transitions
to done ("end").  In particular a report with score 50 at revision_count 0
triggers refining, and revision_count 2 goes straight to "end" regardless
of the report. -/
theorem should_refine_spec (qr : Option QualityReport) (rc : Nat) :
    (should_refine qr rc = "refine" ↔
      rc < 2 ∧ ((qr.map QualityReport.is_valid).getD false = false
        ∨ (qr.map QualityReport.score).getD 0 < 70
        ∨ (qr.map QualityReport.latex_errors).getD [] ≠ []))
    ∧ (should_refine qr rc = "refine" ∨ should_refine qr rc = "end")
    ∧ (∀ q : QualityReport, q.score = 50 → should_refine (some q) 0 = "refine")
    ∧ should_refine qr 2 = "end" := by
  refine ⟨?_, ?_, ?_, ?_⟩
  · unfold should_refine
    rcases qr with _ | q
    · by_cases h2 : rc ≥ 2
      · simp [h2]
      · simp [h2]
        omega
    · by_cases h2 : rc ≥ 2
      · simp only [h2, if_true]
        constructor
        · intro h
          exact absurd h (by decide)
        · intro h
          omega
      · simp only [h2, if_false, Option.map_some', Option.getD_some]
        by_cases hv : q.is_valid <;>
          by_cases hs : q.score < 70 <;>
            by_cases he : q.latex_errors = [] <;>
              simp [hv, hs, he] <;> omega
  · unfold should_refine
    by_cases h2 : rc ≥ 2
    · simp [h2]
    · simp only [h2, if_false]
      split <;> simp
  · intro q hq
    unfold should_refine
    simp [hq]
  · unfold should_refine
    simp

/-- Witness for C8 at a concrete report: score 50 at revision 0 refines,
revision count 2 ends. -/
theorem should_refine_spec_witness :
    should_refine (some ⟨true, 50, [], [], [], 0, 0, 0⟩) 0 = "refine"
    ∧ should_refine (some ⟨true, 50, [], [], [], 0, 0, 0⟩) 2 = "end" :=
  ⟨(should_refine_spec (some ⟨true, 50, [], [], [], 0, 0, 0⟩) 0).2.2.1 _ rfl,
   (should_refine_spec (some ⟨true, 50, [], [], [], 0, 0, 0⟩) 2).2.2.2⟩

/-- **C5 counterexample.** The claim says a paper with url "http://x" plus a
placeholder sentinel in *any* field is rejected; but `is_valid_paper` only
inspects the `title` and `url` fields, so a paper with a fine title and url
and a placeholder "-" in its `authors` field is accepted (and is kept by the
pre-persistence filter of `save_section_results`). -/
theorem is_valid_paper_anyfield_counterexample :
    is_valid_paper ⟨some "Study of X", some "http://x", none, [("authors", "-")]⟩ = true
    ∧ save_section_results_papers
        [⟨some "Study of X", some "http://x", none, [("authors", "-")]⟩]
      = [⟨some "Study of X", some "http://x", none, [("authors", "-")]⟩] := by
  constructor <;> rfl

/-- **C5 (amended).** A `Paper` is accepted iff its stripped title is
non-empty and not a placeholder sentinel and its stripped url is non-empty,
not a placeholder sentinel, and starts with "http"; in particular a paper
whose title is "..." is rejected whatever its other fields, a paper with a
placeholder in its *title or url* field is rejected even when the other one
is fine, the paper (title "Study of X",
url "https://pubmed.ncbi.nlm.nih.gov/123") is accepted, and every paper
persisted by `save_section_results` satisfies the filter. -/
theorem is_valid_paper_spec (p : Paper) (papers : List Paper) :
    (is_valid_paper p = true ↔
      (pyStrip (p.title.getD "") ≠ "" ∧ pyStrip (p.title.getD "") ∉ placeholderSentinels
        ∧ pyStrip (p.url.getD "") ≠ "" ∧ pyStrip (p.url.getD "") ∉ placeholderSentinels
        ∧ pyStartsWith (pyStrip (p.url.getD "")) "http" = true))
    ∧ (∀ u ar oth, is_valid_paper ⟨some "...", u, ar, oth⟩ = false)
    ∧ (∀ t u ar oth, pyStrip t ∈ placeholderSentinels →
        is_valid_paper ⟨some t, some u, ar, oth⟩ = false)
    ∧ (∀ t u ar oth, pyStrip u ∈ placeholderSentinels →
        is_valid_paper ⟨some t, some u, ar, oth⟩ = false)
    ∧ is_valid_paper ⟨some "Study of X", some "https://pubmed.ncbi.nlm.nih.gov/123",
        none, []⟩ = true
    ∧ (∀ q ∈ save_section_results_papers papers, is_valid_paper q = true) := by
  have key : ∀ q : Paper, is_valid_paper q = true ↔
      (pyStrip (q.title.getD "") ≠ "" ∧ pyStrip (q.title.getD "") ∉ placeholderSentinels
        ∧ pyStrip (q.url.getD "") ≠ "" ∧ pyStrip (q.url.getD "") ∉ placeholderSentinels
        ∧ pyStartsWith (pyStrip (q.url.getD "")) "http" = true) := by
    intro q
    unfold is_valid_paper
    dsimp only
    split_ifs with h1 h2
    · simp only [Bool.or_eq_true, beq_iff_eq, contains_true_iff] at h1
      apply iff_of_false (by decide)
      rintro ⟨ht1, ht2, -⟩
      rcases h1 with h | h
      · exact ht1 h
      · exact ht2 h
    · simp only [Bool.or_eq_true, beq_iff_eq, contains_true_iff, Bool.not_eq_true'] at h2
      apply iff_of_false (by decide)
      rintro ⟨-, -, hu1, hu2, hu3⟩
      rcases h2 with (h | h) | h
      · exact hu1 h
      · exact hu2 h
      · exact absurd hu3 (by rw [h]; decide)
    · simp only [Bool.or_eq_true, beq_iff_eq, contains_true_iff, Bool.not_eq_true',
        not_or] at h1 h2
      push_neg at h1 h2
      refine iff_of_true rfl ⟨h1.1, h1.2, h2.1.1, h2.1.2, ?_⟩
      exact Bool.ne_false_iff.mp h2.2
  refine ⟨key p, ?_, ?_, ?_, by rfl, ?_⟩
  · intro u ar oth
    rw [Bool.eq_false_iff]
    intro hvs
    rcases (key _).mp hvs with ⟨-, ht, -⟩
    have hdots : pyStrip "..." ∈ placeholderSentinels := by decide
    exact ht hdots
  · intro t u ar oth hmem
    rw [Bool.eq_false_iff]
    intro hvs
    rcases (key _).mp hvs with ⟨-, ht, -⟩
    exact ht hmem
  · intro t u ar oth hmem
    rw [Bool.eq_false_iff]
    intro hvs
    rcases (key _).mp hvs with ⟨-, -, -, hu, -⟩
    exact hu hmem
  · intro q hq
    exact (List.mem_filter.mp hq).2

/-- Witness for C5 (amended) at concrete records: "..." title rejected,
"-" title with url "http://x" rejected, pubmed paper accepted. -/
theorem is_valid_paper_spec_witness :
    is_valid_paper ⟨some "...", some "http://x", none, []⟩ = false
    ∧ pyStrip " - " ∈ placeholderSentinels
    ∧ is_valid_paper ⟨some " - ", some "http://x", none, []⟩ = false
    ∧ is_valid_paper ⟨some "Study of X", some "https://pubmed.ncbi.nlm.nih.gov/123",
        none, []⟩ = true :=
  ⟨(is_valid_paper_spec ⟨some "...", some "http://x", none, []⟩ []).2.1
      (some "http://x") none [],
   by decide,
   (is_valid_paper_spec ⟨some " - ", some "http://x", none, []⟩ []).2.2.1
      " - " "http://x" none [] (by decide),
   (is_valid_paper_spec ⟨some "Study of X", none, none, []⟩ []).2.2.2.2.1⟩

/-! ## Theorems: quality rubric (C4) -/

theorem prefixAt_length {p l : List Char} (h : prefixAt p l = true) : p.length ≤ l.length := by
  induction p generalizing l with
  | nil => simp
  | cons a as ih =>
    cases l with
    | nil => simp [prefixAt] at h
    | cons b bs =>
      simp only [prefixAt, Bool.and_eq_true] at h
      simpa using ih h.2

theorem matchBraceArg_bound {l : List Char} {n : Nat} (h : matchBraceArg l = some n) :
    2 ≤ n ∧ n ≤ l.length := by
  unfold matchBraceArg at h
  dsimp only at h
  split at h
  · next hc =>
    simp only [Bool.and_eq_true, decide_eq_true_eq] at hc
    cases h
    omega
  · cases h

theorem matchLit_min_length {lit : List Char} {k : List Char → Option Nat} {l : List Char}
    {n : Nat} (hk : ∀ m r, k m = some r → 2 ≤ r ∧ r ≤ m.length)
    (h : matchLit lit k l = some n) : lit.length + 2 ≤ l.length := by
  unfold matchLit at h
  split at h
  · next hp =>
    cases hm : k (l.drop lit.length) with
    | none => rw [hm] at h; cases h
    | some r =>
      have hb := hk _ _ hm
      have := prefixAt_length hp
      simp only [List.length_drop] at hb
      omega
  · cases h

theorem matchSectionCmd_min_length {l : List Char} {n : Nat}
    (h : matchSectionCmd l = some n) : 11 ≤ l.length := by
  unfold matchSectionCmd at h
  have hb : ∀ m r, matchBraceArg m = some r → 2 ≤ r ∧ r ≤ m.length :=
    fun _ _ hh => matchBraceArg_bound hh
  cases h1 : matchLit ("\\section".data ++ [lbrace]) matchBraceArg l with
  | some r =>
    have := matchLit_min_length hb h1
    simpa using this
  | none =>
    rw [h1] at h
    cases h2 : matchLit ("\\subsection".data ++ [lbrace]) matchBraceArg l with
    | some r =>
      have := matchLit_min_length hb h2
      simp at this
      omega
    | none =>
      rw [h2] at h
      have := matchLit_min_length hb h
      simp at this
      omega

theorem countMatchesFuel_eq_zero {f : List Char → Option Nat} {N : Nat}
    (hf : ∀ m, m.length ≤ N → f m = none) :
    ∀ (fuel : Nat) (l : List Char), l.length ≤ N → countMatchesFuel f fuel l = 0 := by
  intro fuel
  induction fuel with
  | zero => intro l _; rfl
  | succ fu ih =>
    intro l hl
    cases l with
    | nil => rfl
    | cons c cs =>
      simp only [countMatchesFuel, hf _ hl]
      exact ih cs (by simp only [List.length_cons] at hl; omega)

theorem countMatches_eq_zero {f : List Char → Option Nat} {N : Nat}
    (hf : ∀ m, m.length ≤ N → f m = none) :
    ∀ l : List Char, l.length ≤ N → countMatches f l = 0 := by
  intro l hl
  exact countMatchesFuel_eq_zero hf l.length l hl

/-- Any text of at most 10 characters has section-command count 0: a match
of the section pattern consumes at least 11 characters. -/
theorem sectionCount_zero_of_short {l : List Char} (h : l.length ≤ 10) :
    countMatches matchSectionCmd l = 0 := by
  refine countMatches_eq_zero (show ∀ m : List Char, m.length ≤ 10 → matchSectionCmd m = none from ?_) l h
  intro m hm
  cases hc : matchSectionCmd m with
  | none => rfl
  | some n =>
    have := matchSectionCmd_min_length hc
    omega

theorem subAt_iff_occCount {p l : List Char} : subAt p l = true ↔ occCount p l ≠ 0 := by
  induction l with
  | nil =>
    unfold subAt occCount
    split <;> simp_all
  | cons c t ih =>
    by_cases hp : prefixAt p (c :: t) = true
    · simp [subAt, occCount, hp]
    · have hp' : prefixAt p (c :: t) = false := Bool.eq_false_iff.mpr hp
      simp [subAt, occCount, hp', ih]

theorem ded_max_length_nonneg (n : Nat) : 0 ≤ ded_max_length n := by
  unfold ded_max_length; split <;> omega

theorem ded_label_nonneg (s : String) : 0 ≤ ded_label s := by
  unfold ded_label; split <;> omega

theorem ded_braces_nonneg (s : String) : 0 ≤ ded_braces s := by
  unfold ded_braces; split <;> omega

theorem ded_env_nonneg (s : String) : 0 ≤ ded_env s := by
  unfold ded_env; split <;> omega

theorem ded_special_nonneg (s : String) : 0 ≤ ded_special s := by
  unfold ded_special; split <;> omega

theorem ded_item_nonneg (s : String) : 0 ≤ ded_item s := by
  unfold ded_item; split <;> omega

theorem ded_promotional_nonneg (s : String) : 0 ≤ ded_promotional s := by
  unfold ded_promotional; split <;> omega

/-- **C4.** A text of length 10 with exactly one structural section marker,
zero label markers and zero citation markers scores at most 40 and is
invalid (for any positive expected-citation count, in particular the
`[3,10]`-clamped one); and in general a report's validity equals
(score at least 60 AND the structural LaTeX error list is empty). -/
theorem validate_latex_quality_spec :
    (∀ (latex sid : String) (expected : Nat),
      latex.data.length = 10 →
      strOccCount latex "\\section" + strOccCount latex "\\subsection"
          + strOccCount latex "\\subsubsection" = 1 →
      strOccCount latex "\\label" = 0 →
      countMatches matchCite latex.data = 0 →
      1 ≤ expected →
      (validate_latex_quality latex sid expected).score ≤ 40
        ∧ (validate_latex_quality latex sid expected).is_valid = false)
    ∧ (∀ (latex sid : String) (expected : Nat),
      (validate_latex_quality latex sid expected).is_valid
        = (decide (60 ≤ (validate_latex_quality latex sid expected).score)
            && (validate_latex_quality latex sid expected).latex_errors.isEmpty)) := by
  constructor
  · intro latex sid expected h10 _hmark hlabel hcite hexp
    have hsec : countMatches matchSectionCmd latex.data = 0 :=
      sectionCount_zero_of_short (by omega)
    have hlab : strContains latex "\\label" = false := by
      rw [Bool.eq_false_iff]
      intro hc
      exact (subAt_iff_occCount.mp hc) hlabel
    have hscore : rubricScore latex expected ≤ 40 := by
      unfold rubricScore
      have h1 : ded_min_length latex.data.length = 20 := by
        rw [h10]; decide
      have h2 : ded_citations (countMatches matchCite latex.data) expected = 15 := by
        rw [hcite]; unfold ded_citations
        rw [if_pos (show 0 < expected by omega)]
      have h3 : ded_sections (countMatches matchSectionCmd latex.data) = 15 := by
        rw [hsec]; decide
      have h4 : 10 ≤ ded_required latex := by
        unfold ded_required missingElements QUALITY_THRESHOLDS_required_elements
        rw [List.filter_cons, List.filter_cons]
        simp only [hlab, Bool.not_false, if_true, List.filter_nil]
        split <;> simp
      have := ded_max_length_nonneg latex.data.length
      have := ded_label_nonneg latex
      have := ded_braces_nonneg latex
      have := ded_env_nonneg latex
      have := ded_special_nonneg latex
      have := ded_item_nonneg latex
      have := ded_promotional_nonneg latex
      rw [h1, h2, h3]
      refine max_le (by omega) (by omega)
    constructor
    · unfold validate_latex_quality
      split
      · decide
      · exact hscore
    · unfold validate_latex_quality
      split
      · rfl
      · have hlt : decide (60 ≤ rubricScore latex expected) = false := by
          rw [decide_eq_false_iff_not]
          omega
        dsimp only
        rw [hlt, Bool.false_and]
  · intro latex sid expected
    unfold validate_latex_quality
    split
    · rfl
    · rfl

/-- Witness for C4 at the concrete 10-character text consisting of one
section command with an empty argument. -/
theorem validate_latex_quality_spec_witness :
    ("\\section\x7b\x7d" : String).data.length = 10
    ∧ (validate_latex_quality "\\section\x7b\x7d" "2.5.1" 3).score ≤ 40
    ∧ (validate_latex_quality "\\section\x7b\x7d" "2.5.1" 3).is_valid = false :=
  ⟨by decide,
   (validate_latex_quality_spec.1 "\\section\x7b\x7d" "2.5.1" 3 (by decide) (by decide)
      (by decide) (by decide) (by decide)).1,
   (validate_latex_quality_spec.1 "\\section\x7b\x7d" "2.5.1" 3 (by decide) (by decide)
      (by decide) (by decide) (by decide)).2⟩

/-! ## Deduplication node (src/sec53_files/multi_agent_research.py lines 440-652)

`deduplication_node` builds `original_sections_data` from the parsed
sections and the per-section search results, invokes the deduplication
agent, parses its answer into a removals/also_relevant instruction, applies
it, and assembles the final JSON.  The agent invocation and the tolerant
JSON extraction of its free-text answer are an external call; the embedding
takes that call's outcome as a parameter: `Except.error` when
`dedup_agent.invoke` (or anything before the instruction is applied) raises
— the `except` branch at lines 618-652 — and `Except.ok none` when no
parseable `removals` object was found in the reply (lines 518-536 leaving
`removals_data = None`). -/

structure SecInfo where
  title : String
  description : String
deriving DecidableEq, Repr

structure SectionData where
  title : String
  description : String
  papers : List Paper
deriving DecidableEq, Repr

/-- The parsed `removals` / `also_relevant` JSON object (lines 540-541):
per-section index lists.  JSON integers may be arbitrary (the agent is
unreliable), hence `Int`; `also_relevant` keys arrive as JSON strings and
pass through `int(paper_idx)` (line 560), modelled as already-parsed
integers. -/
structure DedupInstruction where
  removals : List (String × List Int)
  also_relevant : List (String × List (Int × List String))
deriving Repr

structure DedupStats where
  duplicates_found : Nat
  papers_removed : Nat
deriving DecidableEq, Repr

structure DedupSummary where
  total_unique_papers : Nat
  total_mentions : Nat
  papers_by_section : List (String × Nat)
  deduplication_stats : DedupStats
deriving DecidableEq, Repr

structure FinalJson where
  sections : List (String × SectionData)
  summary : DedupSummary
deriving DecidableEq, Repr

/-- `sorted(set(indices), reverse=True)` (line 551): deduplicate, then sort
in descending order. -/
def sortedDescIdx (l : List Int) : List Int :=
  l.dedup.insertionSort (fun a b => a ≥ b)

/-- The removal loop of lines 551-555 over an already `sorted(...,
reverse=True)` index list: `papers.pop(idx)` for each in-bounds index,
counting the pops. -/
def applyRemovalsSorted : List Paper → List Int → List Paper × Nat
  | papers, [] => (papers, 0)
  | papers, i :: rest =>
    if 0 ≤ i ∧ i < (papers.length : Int) then
      let r := applyRemovalsSorted (papers.eraseIdx i.toNat) rest
      (r.1, r.2 + 1)
    else applyRemovalsSorted papers rest

/-- Lines 548-555: form the index set, order it descending, pop in-bounds
indices; returns the surviving papers and the number removed. -/
def apply_removals (papers : List Paper) (indices : List Int) : List Paper × Nat :=
  applyRemovalsSorted papers (sortedDescIdx indices)

def modifyIdx {α : Type} : List α → Nat → (α → α) → List α
  | [], _, _ => []
  | a :: t, 0, f => f a :: t
  | a :: t, n + 1, f => a :: modifyIdx t n f

/-- Line 562-564: ensure `also_relevant_to` exists, then `.extend`. -/
def addAlsoRelevant (p : Paper) (secs : List String) : Paper :=
  { p with also_relevant_to := some (p.also_relevant_to.getD [] ++ secs) }

/-- Lines 558-564: each `(paper_idx, other_sections)` item in instruction
order, bounds-checked against the current (post-removal) list. -/
def apply_also_relevant (papers : List Paper) (entries : List (Int × List String)) :
    List Paper :=
  entries.foldl
    (fun ps e =>
      if 0 ≤ e.1 ∧ e.1 < (ps.length : Int) then
        modifyIdx ps e.1.toNat (fun p => addAlsoRelevant p e.2)
      else ps)
    papers

/-- Lines 464-474: `original_sections_data`, one entry per parsed section in
order, with that section's search results (default `[]`). -/
def originalSectionsData (sections : List (String × SecInfo))
    (section_results : List (String × List Paper)) : List (String × SectionData) :=
  sections.map (fun s =>
    (s.1, { title := s.2.title, description := s.2.description,
            papers := (alookup section_results s.1).getD [] }))

/-- Lines 546-570 for one section: removals then also-relevant annotations;
returns the final papers and the removed count. -/
def dedupApplySection (papers : List Paper) (removalIdxs : List Int)
    (alsoRel : List (Int × List String)) : List Paper × Nat :=
  let r := apply_removals papers removalIdxs
  (apply_also_relevant r.1 alsoRel, r.2)

def deduplication_node (sections : List (String × SecInfo))
    (section_results : List (String × List Paper))
    (classifier : Except String (Option DedupInstruction)) : FinalJson :=
  let original := originalSectionsData sections section_results
  let total_mentions := (original.map (fun s => s.2.papers.length)).sum
  match classifier with
  | Except.error _ =>
    -- Fallback (lines 623-637): the unreconciled union, zero counts.
    { sections := original,
      summary :=
        { total_unique_papers := total_mentions,
          total_mentions := total_mentions,
          papers_by_section := original.map (fun s => (s.1, s.2.papers.length)),
          deduplication_stats := { duplicates_found := 0, papers_removed := 0 } } }
  | Except.ok instr? =>
    let removals := match instr? with
      | some i => i.removals
      | none => []
    let also_relevant := match instr? with
      | some i => i.also_relevant
      | none => []
    let processed := original.map (fun s =>
      let r := dedupApplySection s.2.papers ((alookup removals s.1).getD [])
        ((alookup also_relevant s.1).getD [])
      (s.1, { title := s.2.title, description := s.2.description, papers := r.1 }, r.2))
    let final_sections := processed.map (fun x => (x.1, x.2.1))
    -- duplicates_found and papers_removed are incremented together
    -- (lines 554-555), so they are the same sum.
    let papers_removed := (processed.map (fun x => x.2.2)).sum
    let total_unique_papers := (final_sections.map (fun s => s.2.papers.length)).sum
    { sections := final_sections,
      summary :=
        { total_unique_papers := total_unique_papers,
          total_mentions := total_mentions,
          papers_by_section := final_sections.map (fun s => (s.1, s.2.papers.length)),
          deduplication_stats :=
            { duplicates_found := papers_removed, papers_removed := papers_removed } } }

/-! ## Theorems: removal application (C1, C9) -/

/-- Spec-side description of index removal, for comparison with the
implementation: walking the list with absolute position `n`, drop exactly
the elements whose position satisfies `P`, keeping the order of the rest. -/
def removeIdxSpecP {α : Type} (P : Int → Bool) : Int → List α → List α
  | _, [] => []
  | n, a :: t => if P n then removeIdxSpecP P (n + 1) t else a :: removeIdxSpecP P (n + 1) t

theorem removeIdxSpecP_congr {α : Type} {P Q : Int → Bool} :
    ∀ (t : List α) (n : Int),
      (∀ j : Int, n ≤ j → j < n + t.length → P j = Q j) →
      removeIdxSpecP P n t = removeIdxSpecP Q n t := by
  intro t
  induction t with
  | nil => intro n _; rfl
  | cons a t ih =>
    intro n h
    have hlen : (n : Int) < n + (a :: t).length := by
      simp only [List.length_cons]
      push_cast
      omega
    have h0 : P n = Q n := h n le_rfl hlen
    have hrec := ih (n + 1) (fun j hj1 hj2 => h j (by omega)
      (by simp only [List.length_cons] at hj2 ⊢; push_cast at hj2 ⊢; omega))
    unfold removeIdxSpecP
    rw [h0, hrec]

theorem removeIdxSpecP_false {α : Type} {P : Int → Bool} :
    ∀ (t : List α) (n : Int),
      (∀ j : Int, n ≤ j → j < n + t.length → P j = false) →
      removeIdxSpecP P n t = t := by
  intro t
  induction t with
  | nil => intro n _; rfl
  | cons a t ih =>
    intro n h
    have hlen : (n : Int) < n + (a :: t).length := by
      simp only [List.length_cons]
      push_cast
      omega
    have h0 : P n = false := h n le_rfl hlen
    unfold removeIdxSpecP
    rw [h0, if_neg (by simp),
      ih (n + 1) (fun j hj1 hj2 => h j (by omega)
        (by simp only [List.length_cons] at hj2 ⊢; push_cast at hj2 ⊢; omega))]

/-- Removing the element at position `k` first and then the positions
satisfying `P` (all of which lie strictly below `n + k`) is removing the
positions satisfying `P` or equal to `n + k`. -/
theorem removeIdxSpecP_eraseIdx {α : Type} {P : Int → Bool} :
    ∀ (t : List α) (k : Nat) (n : Int), k < t.length →
      (∀ j : Int, n + k ≤ j → P j = false) →
      removeIdxSpecP P n (t.eraseIdx k)
        = removeIdxSpecP (fun j => P j || j == n + k) n t := by
  intro t
  induction t with
  | nil => intro k n hk _; simp at hk
  | cons a t ih =>
    intro k n hk hP
    cases k with
    | zero =>
      have hPn : ∀ j : Int, n ≤ j → P j = false := by
        intro j hj
        refine hP j ?_
        push_cast
        omega
      rw [List.eraseIdx_cons_zero]
      rw [removeIdxSpecP_false t n (fun j hj _ => hPn j hj)]
      unfold removeIdxSpecP
      have hc : (P n || n == n + ((0 : Nat) : Int)) = true := by simp
      rw [hc, if_pos rfl]
      refine (removeIdxSpecP_false t (n + 1) (fun j hj _ => ?_)).symm
      have h1 : P j = false := hPn j (by omega)
      have h2 : (j == n + ((0 : Nat) : Int)) = false := by
        simp only [beq_eq_false_iff_ne, ne_eq]
        push_cast
        omega
      rw [h1, h2, Bool.or_false]
    | succ k' =>
      rw [List.eraseIdx_cons_succ]
      have hne : (n == n + ((k' + 1 : Nat) : Int)) = false := by
        simp only [beq_eq_false_iff_ne, ne_eq]
        push_cast
        omega
      have hcond : (P n || n == n + ((k' + 1 : Nat) : Int)) = P n := by
        rw [hne, Bool.or_false]
      have hrec : removeIdxSpecP P (n + 1) (t.eraseIdx k')
          = removeIdxSpecP (fun j => P j || j == n + ((k' + 1 : Nat) : Int)) (n + 1) t := by
        rw [ih k' (n + 1) (by simp only [List.length_cons] at hk; omega)
          (fun j hj => hP j (by push_cast at hj ⊢; omega))]
        refine removeIdxSpecP_congr t (n + 1) (fun j _ _ => ?_)
        have hsum : (n + 1) + (k' : Int) = n + ((k' + 1 : Nat) : Int) := by
          push_cast
          omega
        rw [hsum]
      unfold removeIdxSpecP
      rw [hcond, hrec]

/-- The descending removal loop deletes exactly the in-bounds instructed
positions: on a strictly descending index list it computes
`removeIdxSpecP (· ∈ l)`. -/
theorem applyRemovalsSorted_spec :
    ∀ (l : List Int), l.Pairwise (fun a b => a > b) →
      ∀ papers : List Paper,
        (applyRemovalsSorted papers l).1
          = removeIdxSpecP (fun j => decide (j ∈ l)) 0 papers := by
  intro l
  induction l with
  | nil =>
    intro _ papers
    exact (removeIdxSpecP_false papers 0 (fun j _ _ => by simp)).symm
  | cons i rest ih =>
    intro hpair papers
    have hrest_lt : ∀ j ∈ rest, j < i := (List.pairwise_cons.mp hpair).1
    have hrest_pair := (List.pairwise_cons.mp hpair).2
    unfold applyRemovalsSorted
    by_cases hb : 0 ≤ i ∧ i < (papers.length : Int)
    · rw [if_pos hb]
      dsimp only
      rw [ih hrest_pair (papers.eraseIdx i.toNat)]
      have htn : ((i.toNat : Nat) : Int) = i := Int.toNat_of_nonneg hb.1
      have hiLt : i.toNat < papers.length := by omega
      rw [removeIdxSpecP_eraseIdx papers i.toNat 0 hiLt
        (fun j hj => by
          simp only [decide_eq_false_iff_not]
          intro hmem
          have := hrest_lt j hmem
          omega)]
      refine removeIdxSpecP_congr papers 0 (fun j _ _ => ?_)
      have : (j == 0 + ((i.toNat : Nat) : Int)) = decide (j = i) := by
        rw [show (0 : Int) + ((i.toNat : Nat) : Int) = i by omega]
        by_cases h : j = i
        · simp [h]
        · simp [h]
      rw [this]
      simp only [List.mem_cons, Bool.decide_or, Bool.or_comm]
    · rw [if_neg hb]
      rw [ih hrest_pair papers]
      refine removeIdxSpecP_congr papers 0 (fun j hj1 hj2 => ?_)
      have hji : j ≠ i := by omega
      simp [List.mem_cons, hji]

theorem sortedDescIdx_pairwise (l : List Int) :
    (sortedDescIdx l).Pairwise (fun a b => a > b) := by
  unfold sortedDescIdx
  have hsorted : (l.dedup.insertionSort (fun a b => a ≥ b)).Sorted (fun a b => a ≥ b) :=
    List.sorted_insertionSort _ _
  have hnd : (l.dedup.insertionSort (fun a b => a ≥ b)).Nodup :=
    (List.perm_insertionSort _ _).nodup_iff.mpr l.nodup_dedup
  exact (hsorted.and hnd).imp (fun h => lt_of_le_of_ne h.1.le (fun he => h.2 he.symm))

theorem sortedDescIdx_mem (l : List Int) (j : Int) :
    j ∈ sortedDescIdx l ↔ j ∈ l := by
  unfold sortedDescIdx
  rw [(List.perm_insertionSort _ _).mem_iff, List.mem_dedup]

/-- **C1.** Applying a `DeduplicationInstruction`'s removals to a section's
paper list deletes exactly the papers at the instructed in-bounds positions
of the original list (positions counted against the pre-removal list, the
spec-side `removeIdxSpecP`), silently ignoring out-of-range indices and
preserving the relative order of the rest; and the outcome (papers and
count) depends only on which indices are instructed, not on the order the
instruction lists them. -/
theorem apply_removals_spec (papers : List Paper) (idxs idxs2 : List Int) :
    (apply_removals papers idxs).1
      = removeIdxSpecP (fun j => decide (j ∈ idxs)) 0 papers
    ∧ ((∀ j : Int, j ∈ idxs ↔ j ∈ idxs2) →
        apply_removals papers idxs = apply_removals papers idxs2) := by
  constructor
  · rw [apply_removals, applyRemovalsSorted_spec _ (sortedDescIdx_pairwise idxs) papers]
    exact removeIdxSpecP_congr papers 0 (fun j _ _ => by
      simp [sortedDescIdx_mem])
  · intro hmem
    have : sortedDescIdx idxs = sortedDescIdx idxs2 := by
      have h1 := sortedDescIdx_pairwise idxs
      have h2 := sortedDescIdx_pairwise idxs2
      refine List.eq_of_perm_of_sorted ?_
        (h1.imp (fun h => le_of_lt h)) (h2.imp (fun h => le_of_lt h))
      refine (List.perm_ext_iff_of_nodup
        (h1.imp (fun h => ne_of_gt h)) (h2.imp (fun h => ne_of_gt h))).mpr ?_
      intro j
      rw [sortedDescIdx_mem, sortedDescIdx_mem]
      exact hmem j
    unfold apply_removals
    rw [this]

/-- Witness for C1: `removals = [2, 0]` on a three-paper section leaves only
the paper originally at index 1, out-of-range index 7 is ignored, and the
instruction order `[0, 2]` gives the same outcome. -/
theorem apply_removals_spec_witness :
    (apply_removals [⟨some "A", none, none, []⟩, ⟨some "B", none, none, []⟩,
        ⟨some "C", none, none, []⟩] [2, 0]).1 = [⟨some "B", none, none, []⟩]
    ∧ (∀ j : Int, j ∈ ([2, 0] : List Int) ↔ j ∈ ([0, 2] : List Int))
    ∧ apply_removals [⟨some "A", none, none, []⟩, ⟨some "B", none, none, []⟩,
        ⟨some "C", none, none, []⟩] [2, 0]
      = apply_removals [⟨some "A", none, none, []⟩, ⟨some "B", none, none, []⟩,
        ⟨some "C", none, none, []⟩] [0, 2]
    ∧ (apply_removals [⟨some "A", none, none, []⟩, ⟨some "B", none, none, []⟩,
        ⟨some "C", none, none, []⟩] [2, 0, 7]).1 = [⟨some "B", none, none, []⟩] := by
  refine ⟨?_, by intro j; simp only [List.mem_cons, List.not_mem_nil, or_false]; omega, ?_, ?_⟩
  · rw [(apply_removals_spec [⟨some "A", none, none, []⟩, ⟨some "B", none, none, []⟩,
      ⟨some "C", none, none, []⟩] [2, 0] [0, 2]).1]
    decide
  · exact (apply_removals_spec [⟨some "A", none, none, []⟩, ⟨some "B", none, none, []⟩,
      ⟨some "C", none, none, []⟩] [2, 0] [0, 2]).2
      (by intro j; simp only [List.mem_cons, List.not_mem_nil, or_false]; omega)
  · rw [(apply_removals_spec [⟨some "A", none, none, []⟩, ⟨some "B", none, none, []⟩,
      ⟨some "C", none, none, []⟩] [2, 0, 7] [0, 2]).1]
    decide

/-! ## Theorems: fallback behaviour (C6) and summary invariant (C10) -/

theorem applyRemovalsSorted_length :
    ∀ (l : List Int) (papers : List Paper),
      (applyRemovalsSorted papers l).1.length + (applyRemovalsSorted papers l).2
        = papers.length := by
  intro l
  induction l with
  | nil => intro papers; rfl
  | cons i rest ih =>
    intro papers
    unfold applyRemovalsSorted
    by_cases hb : 0 ≤ i ∧ i < (papers.length : Int)
    · rw [if_pos hb]
      dsimp only
      have := ih (papers.eraseIdx i.toNat)
      have hlen : (papers.eraseIdx i.toNat).length
          = if i.toNat < papers.length then papers.length - 1 else papers.length :=
        List.length_eraseIdx papers i.toNat
      rw [if_pos (by omega)] at hlen
      omega
    · rw [if_neg hb]
      exact ih papers

theorem modifyIdx_length {α : Type} : ∀ (l : List α) (n : Nat) (f : α → α),
    (modifyIdx l n f).length = l.length := by
  intro l
  induction l with
  | nil => intro n f; rfl
  | cons a t ih =>
    intro n f
    cases n with
    | zero => rfl
    | succ n => simp [modifyIdx, ih]

theorem apply_also_relevant_length :
    ∀ (entries : List (Int × List String)) (papers : List Paper),
      (apply_also_relevant papers entries).length = papers.length := by
  intro entries
  induction entries with
  | nil => intro papers; rfl
  | cons e rest ih =>
    intro papers
    unfold apply_also_relevant at *
    rw [List.foldl_cons]
    rw [ih]
    split <;> simp [modifyIdx_length]

theorem dedupApplySection_length (ps : List Paper) (rs : List Int)
    (as : List (Int × List String)) :
    (dedupApplySection ps rs as).1.length + (dedupApplySection ps rs as).2 = ps.length := by
  unfold dedupApplySection apply_removals
  dsimp only
  rw [apply_also_relevant_length]
  exact applyRemovalsSorted_length _ ps

/-- Per-section lengths summed: surviving papers plus removed papers equals
the original mention count. -/
theorem sum_dedup_lengths (rem : List (String × List Int))
    (ar : List (String × List (Int × List String))) :
    ∀ orig : List (String × SectionData),
      ((orig.map (fun s =>
          (dedupApplySection s.2.papers ((alookup rem s.1).getD [])
            ((alookup ar s.1).getD [])).1.length)).sum)
        + ((orig.map (fun s =>
          (dedupApplySection s.2.papers ((alookup rem s.1).getD [])
            ((alookup ar s.1).getD [])).2)).sum)
      = (orig.map (fun s => s.2.papers.length)).sum := by
  intro orig
  induction orig with
  | nil => rfl
  | cons a t ih =>
    simp only [List.map_cons, List.sum_cons]
    have := dedupApplySection_length a.2.papers ((alookup rem a.1).getD [])
      ((alookup ar a.1).getD [])
    omega

/-- **C6.** If the classifier call raises, or its reply yields no parseable
removals object, the reconciler emits the unreconciled union (every section
keeps its original title, description and papers) with duplicates_found and
papers_removed both zero. -/
theorem deduplication_node_fallback (sections : List (String × SecInfo))
    (section_results : List (String × List Paper)) (err : String) :
    (deduplication_node sections section_results (Except.error err)).sections
        = originalSectionsData sections section_results
    ∧ (deduplication_node sections section_results
        (Except.error err)).summary.deduplication_stats
        = { duplicates_found := 0, papers_removed := 0 }
    ∧ (deduplication_node sections section_results (Except.ok none)).sections
        = originalSectionsData sections section_results
    ∧ (deduplication_node sections section_results
        (Except.ok none)).summary.deduplication_stats
        = { duplicates_found := 0, papers_removed := 0 } := by
  have hid : ∀ orig : List (String × SectionData),
      orig.map (fun s =>
        (s.1, SectionData.mk s.2.title s.2.description
          (dedupApplySection s.2.papers
            ((alookup ([] : List (String × List Int)) s.1).getD [])
            ((alookup ([] : List (String × List (Int × List String))) s.1).getD [])).1))
      = orig := by
    intro orig
    induction orig with
    | nil => rfl
    | cons a t ih =>
      simp only [List.map_cons]
      rw [ih]
      rfl
  have hzero : ∀ orig : List (String × SectionData),
      (orig.map (fun s =>
        (dedupApplySection s.2.papers
          ((alookup ([] : List (String × List Int)) s.1).getD [])
          ((alookup ([] : List (String × List (Int × List String))) s.1).getD [])).2)).sum
      = 0 := by
    intro orig
    induction orig with
    | nil => rfl
    | cons a t ih =>
      simp only [List.map_cons, List.sum_cons]
      rw [ih]
      rfl
  refine ⟨rfl, rfl, ?_, ?_⟩
  · simp only [deduplication_node]
    rw [List.map_map]
    exact hid (originalSectionsData sections section_results)
  · simp only [deduplication_node]
    rw [List.map_map]
    exact congrArg₂ DedupStats.mk
      (hzero (originalSectionsData sections section_results))
      (hzero (originalSectionsData sections section_results))

/-- **C10.** In every outcome of the reconciliation step (classifier
succeeded, reply unparseable, classifier raised) the emitted summary
satisfies `total_unique_papers + papers_removed = total_mentions`, and
`papers_by_section` maps each section id to the length of that section's
final papers list. -/
theorem deduplication_node_summary (sections : List (String × SecInfo))
    (section_results : List (String × List Paper))
    (classifier : Except String (Option DedupInstruction)) :
    (deduplication_node sections section_results classifier).summary.total_unique_papers
        + (deduplication_node sections section_results
            classifier).summary.deduplication_stats.papers_removed
      = (deduplication_node sections section_results classifier).summary.total_mentions
    ∧ (deduplication_node sections section_results classifier).summary.papers_by_section
      = (deduplication_node sections section_results classifier).sections.map
          (fun s => (s.1, s.2.papers.length)) := by
  cases classifier with
  | error e => exact ⟨rfl, rfl⟩
  | ok instr? =>
    constructor
    · simp only [deduplication_node]
      rw [List.map_map, List.map_map, List.map_map]
      exact sum_dedup_lengths _ _ (originalSectionsData sections section_results)
    · rfl

/-! ## Theorems: also-relevant indices address the post-removal list (C9) -/

theorem getD_mem_of_lt {α : Type} : ∀ (l : List α) (k : Nat) (d : α),
    k < l.length → l.getD k d ∈ l := by
  intro l
  induction l with
  | nil => intro k d h; simp at h
  | cons a t ih =>
    intro k d h
    cases k with
    | zero => simp
    | succ k =>
      simp only [List.getD_cons_succ]
      exact List.mem_cons_of_mem a (ih k d (by simpa using Nat.lt_of_succ_lt_succ h))

theorem getD_map_of_lt {α β : Type} (f : α → β) :
    ∀ (l : List α) (k : Nat) (da : α) (db : β), k < l.length →
      (l.map f).getD k db = f (l.getD k da) := by
  intro l
  induction l with
  | nil => intro k da db h; simp at h
  | cons a t ih =>
    intro k da db h
    cases k with
    | zero => rfl
    | succ k =>
      simp only [List.map_cons, List.getD_cons_succ]
      exact ih k da db (by simpa using Nat.lt_of_succ_lt_succ h)

/-- On a strictly increasing list of naturals bounded below by `b`, the
`k`-th entry is at least `b + k`. -/
theorem sorted_lt_add_le_getD :
    ∀ (l : List Nat), l.Pairwise (fun a b => a < b) →
      ∀ (b : Nat), (∀ x ∈ l, b ≤ x) → ∀ k, k < l.length → b + k ≤ l.getD k 0 := by
  intro l
  induction l with
  | nil => intro _ b _ k h; simp at h
  | cons a t ih =>
    intro hpair b hb k hk
    have hhead := (List.pairwise_cons.mp hpair).1
    have htail := (List.pairwise_cons.mp hpair).2
    cases k with
    | zero =>
      simpa using hb a (List.mem_cons_self a t)
    | succ k =>
      simp only [List.getD_cons_succ]
      have h1 := ih htail (a + 1) (fun x hx => hhead x hx) k
        (by simpa using Nat.lt_of_succ_lt_succ hk)
      have h2 : b ≤ a := hb a (List.mem_cons_self a t)
      omega

/-- On a strictly increasing list of naturals, entries grow at least as fast
as their positions. -/
theorem sorted_lt_getD_mono :
    ∀ (l : List Nat), l.Pairwise (fun a b => a < b) →
      ∀ j k, j ≤ k → k < l.length → l.getD j 0 + (k - j) ≤ l.getD k 0 := by
  intro l
  induction l with
  | nil => intro _ j k _ h; simp at h
  | cons a t ih =>
    intro hpair j k hjk hk
    have hhead := (List.pairwise_cons.mp hpair).1
    have htail := (List.pairwise_cons.mp hpair).2
    cases j with
    | zero =>
      cases k with
      | zero => simp
      | succ k =>
        simp only [List.getD_cons_zero, List.getD_cons_succ]
        have := sorted_lt_add_le_getD t htail (a + 1) (fun x hx => hhead x hx) k
          (by simpa using Nat.lt_of_succ_lt_succ hk)
        omega
    | succ j =>
      cases k with
      | zero => omega
      | succ k =>
        simp only [List.getD_cons_succ]
        have := ih htail j k (by omega) (by simpa using Nat.lt_of_succ_lt_succ hk)
        omega

/-- `removeIdxSpecP` keeps exactly the positions whose index fails `P`, in
order: it is the original list sampled at its kept indices. -/
theorem removeIdxSpecP_eq_map_kept {α : Type} (pd : α) (P : Int → Bool) :
    ∀ (t : List α) (n : Int),
      removeIdxSpecP P n t
        = ((List.range t.length).filter (fun (j : Nat) => !(P (n + (j : Int))))).map
            (fun j => t.getD j pd) := by
  intro t
  induction t with
  | nil => intro n; rfl
  | cons a t ih =>
    intro n
    simp only [List.length_cons]
    rw [List.range_succ_eq_map, List.filter_cons]
    have hcast0 : (n + ((0 : Nat) : Int)) = n := by push_cast; omega
    have hfcongr : (List.range t.length).filter
          ((fun (j : Nat) => !(P (n + (j : Int)))) ∘ Nat.succ)
        = (List.range t.length).filter (fun (j : Nat) => !(P ((n + 1) + (j : Int)))) := by
      refine List.filter_congr (fun j _ => ?_)
      have hc : n + ((j.succ : Nat) : Int) = (n + 1) + (j : Int) := by push_cast; omega
      simp only [Function.comp]
      rw [hc]
    by_cases hP : P n = true
    · have hq : (!(P (n + ((0 : Nat) : Int)))) = false := by rw [hcast0, hP]; rfl
      rw [hq, if_neg (by simp)]
      rw [List.filter_map, List.map_map, hfcongr]
      unfold removeIdxSpecP
      rw [hP, if_pos rfl, ih (n + 1)]
      refine List.map_congr_left (fun j _ => ?_)
      simp [Function.comp]
    · have hPn : P n = false := Bool.eq_false_iff.mpr hP
      have hq : (!(P (n + ((0 : Nat) : Int)))) = true := by rw [hcast0, hPn]; rfl
      rw [hq, if_pos rfl]
      rw [List.filter_map]
      simp only [List.map_cons, List.getD_cons_zero]
      rw [List.map_map, hfcongr]
      unfold removeIdxSpecP
      rw [hPn, if_neg (by simp), ih (n + 1)]
      refine congrArg (fun ls => a :: ls) ?_
      refine List.map_congr_left (fun j _ => ?_)
      simp [Function.comp]

/-- **C9.** Also-relevant annotations are applied after removals and their
indices are bounds-checked against — and address — the post-removal list:
whenever some in-bounds index smaller than `k` was removed, the entry keyed
`k` annotates the paper occupying position `k` *after* the removals, which
is a paper whose original index `m` was strictly greater than `k`. -/
theorem dedup_also_relevant_post_removal (papers : List Paper) (ridxs : List Int)
    (k : Nat) (secs : List String)
    (hk : k < (apply_removals papers ridxs).1.length)
    (hr : ∃ r : Int, r ∈ ridxs ∧ 0 ≤ r ∧ r < (k : Int)) :
    ∃ m : Nat, k < m ∧ m < papers.length ∧
      (apply_removals papers ridxs).1.getD k default = papers.getD m default ∧
      apply_also_relevant (apply_removals papers ridxs).1 [((k : Int), secs)]
        = modifyIdx (apply_removals papers ridxs).1 k
            (fun p => addAlsoRelevant p secs) := by
  obtain ⟨r, hrmem, hr0, hrk⟩ := hr
  have hpost : (apply_removals papers ridxs).1
      = removeIdxSpecP (fun j => decide (j ∈ ridxs)) 0 papers :=
    (apply_removals_spec papers ridxs ridxs).1
  have hmap : (apply_removals papers ridxs).1
      = ((List.range papers.length).filter
          (fun (j : Nat) => !(decide (((0 : Int) + (j : Int)) ∈ ridxs)))).map
        (fun j => papers.getD j default) := by
    rw [hpost]
    exact removeIdxSpecP_eq_map_kept default (fun j => decide (j ∈ ridxs)) papers 0
  set kept : List Nat := (List.range papers.length).filter
    (fun (j : Nat) => !(decide (((0 : Int) + (j : Int)) ∈ ridxs))) with hkept
  have hklen : kept.length = (apply_removals papers ridxs).1.length := by
    rw [hmap, List.length_map]
  have hk' : k < kept.length := by omega
  have hpw : kept.Pairwise (fun a b => a < b) :=
    List.Pairwise.filter _ (List.pairwise_lt_range _)
  have hkm : k ≤ kept.getD k 0 := by
    have := sorted_lt_add_le_getD kept hpw 0 (fun x _ => Nat.zero_le x) k hk'
    omega
  have hmmem : kept.getD k 0 ∈ kept := getD_mem_of_lt kept k 0 hk'
  have hmrange : kept.getD k 0 < papers.length :=
    List.mem_range.mp (List.mem_filter.mp hmmem).1
  have hkeptP : ∀ x ∈ kept, ¬ (((0 : Int) + (x : Int)) ∈ ridxs) := by
    intro x hx
    have := (List.mem_filter.mp hx).2
    simpa using this
  have hne : kept.getD k 0 ≠ k := by
    intro he
    have hrt : ((r.toNat : Nat) : Int) = r := Int.toNat_of_nonneg hr0
    have hrtk : r.toNat < k := by omega
    have hrtlen : r.toNat < kept.length := by omega
    have hub := sorted_lt_getD_mono kept hpw r.toNat k (by omega) hk'
    have hlb := sorted_lt_add_le_getD kept hpw 0 (fun x _ => Nat.zero_le x) r.toNat hrtlen
    have heq : kept.getD r.toNat 0 = r.toNat := by omega
    have hmem2 : kept.getD r.toNat 0 ∈ kept := getD_mem_of_lt kept r.toNat 0 hrtlen
    rw [heq] at hmem2
    refine hkeptP r.toNat hmem2 ?_
    rw [show ((0 : Int) + ((r.toNat : Nat) : Int)) = r by omega]
    exact hrmem
  refine ⟨kept.getD k 0, by omega, hmrange, ?_, ?_⟩
  · rw [hmap]
    exact getD_map_of_lt (fun j => papers.getD j default) kept k 0 default hk'
  · unfold apply_also_relevant
    rw [List.foldl_cons, List.foldl_nil]
    rw [if_pos ⟨Int.natCast_nonneg k, by push_cast; exact_mod_cast hk⟩]
    rw [Int.toNat_natCast]

/-- Witness for C9: removing index 0 from a three-paper section and then
annotating key 1 hits the paper that was originally at index 2. -/
theorem dedup_also_relevant_post_removal_witness :
    1 < (apply_removals [⟨some "A", none, none, []⟩, ⟨some "B", none, none, []⟩,
        ⟨some "C", none, none, []⟩] [0]).1.length
    ∧ (∃ r : Int, r ∈ ([0] : List Int) ∧ 0 ≤ r ∧ r < ((1 : Nat) : Int))
    ∧ (∃ m : Nat, 1 < m ∧
        m < ([⟨some "A", none, none, []⟩, ⟨some "B", none, none, []⟩,
          ⟨some "C", none, none, []⟩] : List Paper).length ∧
        (apply_removals [⟨some "A", none, none, []⟩, ⟨some "B", none, none, []⟩,
            ⟨some "C", none, none, []⟩] [0]).1.getD 1 default
          = ([⟨some "A", none, none, []⟩, ⟨some "B", none, none, []⟩,
              ⟨some "C", none, none, []⟩] : List Paper).getD m default ∧
        apply_also_relevant (apply_removals [⟨some "A", none, none, []⟩,
            ⟨some "B", none, none, []⟩, ⟨some "C", none, none, []⟩] [0]).1
            [(((1 : Nat) : Int), ["2.5.2"])]
          = modifyIdx (apply_removals [⟨some "A", none, none, []⟩,
              ⟨some "B", none, none, []⟩, ⟨some "C", none, none, []⟩] [0]).1 1
              (fun p => addAlsoRelevant p ["2.5.2"])) :=
  ⟨by decide, ⟨0, by decide, by decide, by decide⟩,
   dedup_also_relevant_post_removal
     [⟨some "A", none, none, []⟩, ⟨some "B", none, none, []⟩, ⟨some "C", none, none, []⟩]
     [0] 1 ["2.5.2"] (by decide) ⟨0, by decide, by decide, by decide⟩⟩

/-! ## Regulation-outline parser
(src/sec53_files/multi_agent_research.py lines 106-152)

The file read at line 111 is I/O; the embedding takes the file's text.  The
header regular expression is `^(\d+\.\d+\.\d+(?:\.\d+)?)\s+(.+)$` — three
mandatory dot-separated integer components and one optional fourth — and it
is applied to the *stripped* line.  On a stripped line (no leading or
trailing whitespace) the greedy readings below coincide with the regex's
backtracking: each digit run is maximal, a consumed fourth component not
followed by whitespace makes the whole match fail (backtracking to three
components immediately hits the `.`), and `\s+(.+)$` splits at the maximal
whitespace run after the id. -/

/-- Consume `\.\d+`: a dot followed by a non-empty digit run. -/
def splitComponent (l : List Char) : Option (List Char × List Char) :=
  match l with
  | [] => none
  | c :: rest =>
    if c == '.' then
      let d := rest.takeWhile Char.isDigit
      if d.isEmpty then none else some (d, rest.drop d.length)
    else none

/-- Consume `\s+(.+)$` on a stripped line: at least one whitespace
character, then the non-empty rest as the title. -/
def titleAfterWs (rest : List Char) : Option String :=
  match rest with
  | [] => none
  | c :: _ =>
    if isPyWs c then
      let title := rest.dropWhile isPyWs
      if title.isEmpty then none else some (String.mk title)
    else none

/-- `re.match(r'^(\d+\.\d+\.\d+(?:\.\d+)?)\s+(.+)$', line)` (line 127),
returning `(section id, title)`. -/
def matchHeader (line : String) : Option (String × String) :=
  let l := line.data
  let d1 := l.takeWhile Char.isDigit
  if d1.isEmpty then none
  else
    match splitComponent (l.drop d1.length) with
    | none => none
    | some (d2, r2) =>
      match splitComponent r2 with
      | none => none
      | some (d3, r3) =>
        let id3 := d1 ++ '.' :: d2 ++ '.' :: d3
        match splitComponent r3 with
        | some (d4, r4) =>
          (titleAfterWs r4).map (fun t => (String.mk (id3 ++ '.' :: d4), t))
        | none => (titleAfterWs r3).map (fun t => (String.mk id3, t))

/-- Python `sections[sid] = {...}`: a dict assignment keeps the original
insertion position of an existing key and appends a new one. -/
def upsert (m : List (String × SecInfo)) (k : String) (v : SecInfo) :
    List (String × SecInfo) :=
  if m.any (fun p => p.1 == k) then m.map (fun p => if p.1 == k then (k, v) else p)
  else m ++ [(k, v)]

/-- Lines 129-134 and 145-150: store the accumulated section, if any. -/
def flushSection (cur : Option (String × String)) (desc : List String)
    (acc : List (String × SecInfo)) : List (String × SecInfo) :=
  match cur with
  | none => acc
  | some (sid, title) => upsert acc sid ⟨title, pyStrip (joinNl desc)⟩

/-- The line loop of lines 121-150: strip, skip empty lines, start a new
section on a header match, otherwise accumulate into the current section's
description (discarding text before the first header). -/
def parseRegLines : List String → Option (String × String) → List String →
    List (String × SecInfo) → List (String × SecInfo)
  | [], cur, desc, acc => flushSection cur desc acc
  | line :: rest, cur, desc, acc =>
    let l := pyStrip line
    if l == "" then parseRegLines rest cur desc acc
    else
      match matchHeader l with
      | some h => parseRegLines rest (some h) [] (flushSection cur desc acc)
      | none =>
        match cur with
        | some _ => parseRegLines rest cur (desc ++ [l]) acc
        | none => parseRegLines rest cur desc acc

/-- `parse_regulation_file`, applied to the file's contents. -/
def parse_regulation_file (content : String) : List (String × SecInfo) :=
  parseRegLines (pySplitNl content) none [] []

/-! Spec-side view of the parser, following the spec's words: the stripped
non-empty lines, chunked at header lines; each chunk is a header with the
lines strictly between it and the next header. -/

def processedLines (content : String) : List String :=
  ((pySplitNl content).map pyStrip).filter (fun l => !(l == ""))

def headerLines (ls : List String) : List String :=
  ls.filter (fun l => (matchHeader l).isSome)

/-- Chunking (fuelled for structural recursion; a chunk step always consumes
at least one line, so `L.length` fuel suffices). -/
def specChunksFuel : Nat → List String → List ((String × String) × List String)
  | 0, _ => []
  | _ + 1, [] => []
  | fuel + 1, l :: rest =>
    match matchHeader l with
    | some h =>
      (h, rest.takeWhile (fun x => (matchHeader x).isNone))
        :: specChunksFuel fuel (rest.dropWhile (fun x => (matchHeader x).isNone))
    | none => specChunksFuel fuel rest

def specChunks (ls : List String) : List ((String × String) × List String) :=
  specChunksFuel ls.length ls

/-- Modelled from the spec's words: one entry per header line, the
description being the stripped non-empty lines strictly between that header
and the next, newline-joined. -/
def specEntries (content : String) : List (String × SecInfo) :=
  (specChunks (processedLines content)).map
    (fun c => (c.1.1, ⟨c.1.2, pyStrip (joinNl c.2)⟩))

/-- Modelled from the claim's words: the claimed "2-4 dot-separated
integers followed by a title" header shape. -/
def headerPattern2to4 (line : String) : Bool :=
  let l := line.data
  let d1 := l.takeWhile Char.isDigit
  if d1.isEmpty then false
  else
    match splitComponent (l.drop d1.length) with
    | none => false
    | some (_, r2) =>
      (titleAfterWs r2).isSome ||
        (match splitComponent r2 with
         | none => false
         | some (_, r3) =>
           (titleAfterWs r3).isSome ||
             (match splitComponent r3 with
              | none => false
              | some (_, r4) => (titleAfterWs r4).isSome))

/-- **C7 counterexample.** "2.5 Overview" matches the claimed 2-4-component
header pattern yet the parser (whose regex demands at least three
components) yields no entry; and two header lines sharing the id "1.2.3"
yield one entry, not two. -/
theorem parse_regulation_file_counterexample :
    headerPattern2to4 "2.5 Overview" = true
    ∧ parse_regulation_file "2.5 Overview" = []
    ∧ (parse_regulation_file "1.2.3 A\nx\n1.2.3 B").length = 1 := by
  refine ⟨by decide, by decide, by decide⟩

/-- The parser loop on already stripped, non-empty lines. -/
def chunkCont : List String → Option (String × String) → List String →
    List (String × SecInfo) → List (String × SecInfo)
  | [], cur, desc, acc => flushSection cur desc acc
  | l :: rest, cur, desc, acc =>
    match matchHeader l with
    | some h => chunkCont rest (some h) [] (flushSection cur desc acc)
    | none =>
      match cur with
      | some _ => chunkCont rest cur (desc ++ [l]) acc
      | none => chunkCont rest cur desc acc

/-- Stripping and empty-line skipping commute with the loop: running the
parser on the raw lines is running `chunkCont` on the processed lines. -/
theorem parseRegLines_eq_chunkCont :
    ∀ (ls : List String) (cur : Option (String × String)) (desc : List String)
      (acc : List (String × SecInfo)),
      parseRegLines ls cur desc acc
        = chunkCont ((ls.map pyStrip).filter (fun l => !(l == ""))) cur desc acc := by
  intro ls
  induction ls with
  | nil => intro cur desc acc; rfl
  | cons line rest ih =>
    intro cur desc acc
    have hstep : parseRegLines (line :: rest) cur desc acc
        = (if pyStrip line == "" then parseRegLines rest cur desc acc
           else
             match matchHeader (pyStrip line) with
             | some h => parseRegLines rest (some h) [] (flushSection cur desc acc)
             | none =>
               match cur with
               | some _ => parseRegLines rest cur (desc ++ [pyStrip line]) acc
               | none => parseRegLines rest cur desc acc) := rfl
    rw [hstep]
    simp only [List.map_cons, List.filter_cons]
    by_cases he : pyStrip line = ""
    · rw [if_pos (by simp [he])]
      rw [show (!(pyStrip line == "")) = false by simp [he], if_neg (by simp)]
      exact ih cur desc acc
    · rw [if_neg (by simp [he])]
      rw [show (!(pyStrip line == "")) = true by simp [he], if_pos rfl]
      cases hml : matchHeader (pyStrip line) with
      | some h =>
        simp only [hml, chunkCont]
        exact ih (some h) [] (flushSection cur desc acc)
      | none =>
        cases cur with
        | some c =>
          simp only [hml, chunkCont]
          exact ih (some c) (desc ++ [pyStrip line]) acc
        | none =>
          simp only [hml, chunkCont]
          exact ih none desc acc

/-- While a section is open, the loop gathers exactly the non-header lines
up to the next header into its description and flushes it. -/
theorem chunkCont_some :
    ∀ (L : List String) (id t : String) (desc : List String)
      (acc : List (String × SecInfo)),
      chunkCont L (some (id, t)) desc acc
        = chunkCont (L.dropWhile (fun x => (matchHeader x).isNone)) none []
            (upsert acc id
              ⟨t, pyStrip (joinNl
                (desc ++ L.takeWhile (fun x => (matchHeader x).isNone)))⟩) := by
  intro L
  induction L with
  | nil =>
    intro id t desc acc
    simp only [List.dropWhile_nil, List.takeWhile_nil, List.append_nil]
    rfl
  | cons l rest ih =>
    intro id t desc acc
    cases hml : matchHeader l with
    | some h =>
      have hnone : ((matchHeader l).isNone) = false := by rw [hml]; rfl
      rw [List.dropWhile_cons, List.takeWhile_cons]
      rw [hnone, if_neg (by simp), if_neg (by simp), List.append_nil]
      simp only [chunkCont, hml]
      rfl
    | none =>
      have hnone : ((matchHeader l).isNone) = true := by rw [hml]; rfl
      rw [List.dropWhile_cons, List.takeWhile_cons]
      rw [hnone, if_pos rfl, if_pos rfl]
      simp only [chunkCont, hml]
      rw [ih id t (desc ++ [l]) acc, List.append_assoc]
      rfl

theorem upsert_of_fresh (m : List (String × SecInfo)) (k : String) (v : SecInfo)
    (h : ∀ p ∈ m, p.1 ≠ k) : upsert m k v = m ++ [(k, v)] := by
  unfold upsert
  rw [if_neg]
  intro hany
  obtain ⟨p, hp, hpk⟩ := List.any_eq_true.mp hany
  exact h p hp (by simpa using hpk)

/-- With no open section and pairwise-distinct chunk ids fresh for the
accumulator, the loop appends one entry per chunk. -/
theorem chunkCont_none_eq_chunks :
    ∀ (fuel : Nat) (L : List String) (acc : List (String × SecInfo)),
      L.length ≤ fuel →
      ((specChunksFuel fuel L).map (fun c => c.1.1)).Nodup →
      (∀ id ∈ (specChunksFuel fuel L).map (fun c => c.1.1), ∀ p ∈ acc, p.1 ≠ id) →
      chunkCont L none [] acc
        = acc ++ (specChunksFuel fuel L).map
            (fun c => (c.1.1, (⟨c.1.2, pyStrip (joinNl c.2)⟩ : SecInfo))) := by
  intro fuel
  induction fuel with
  | zero =>
    intro L acc hlen _ _
    have : L = [] := List.length_eq_zero.mp (Nat.le_zero.mp hlen)
    subst this
    simp only [specChunksFuel, List.map_nil, List.append_nil]
    rfl
  | succ fu ih =>
    intro L acc hlen hnd hfresh
    cases L with
    | nil =>
      simp only [specChunksFuel, List.map_nil, List.append_nil]
      rfl
    | cons l rest =>
      cases hml : matchHeader l with
      | none =>
        have hchunks : specChunksFuel (fu + 1) (l :: rest) = specChunksFuel fu rest := by
          simp [specChunksFuel, hml]
        rw [hchunks] at hnd hfresh ⊢
        simp only [chunkCont, hml]
        exact ih rest acc (by simpa using Nat.le_of_succ_le_succ hlen) hnd hfresh
      | some h =>
        have hchunks : specChunksFuel (fu + 1) (l :: rest)
            = (h, rest.takeWhile (fun x => (matchHeader x).isNone))
              :: specChunksFuel fu (rest.dropWhile (fun x => (matchHeader x).isNone)) := by
          simp [specChunksFuel, hml]
        rw [hchunks] at hnd hfresh ⊢
        simp only [chunkCont, hml]
        have hflush : flushSection none [] acc = acc := rfl
        rw [hflush]
        obtain ⟨hid, htl⟩ := List.pairwise_cons.mp (by
          simpa only [List.map_cons] using hnd)
        rw [show chunkCont rest (some h) [] acc
            = chunkCont rest (some (h.1, h.2)) [] acc by rfl]
        rw [chunkCont_some rest h.1 h.2 [] acc]
        have hfreshh : ∀ p ∈ acc, p.1 ≠ h.1 := by
          intro p hp
          exact hfresh h.1 (by simp) p hp
        rw [upsert_of_fresh acc h.1 _ hfreshh]
        have hlen' : (rest.dropWhile (fun x => (matchHeader x).isNone)).length ≤ fu := by
          have h1 : (rest.dropWhile (fun x => (matchHeader x).isNone)).length
              ≤ rest.length := (List.dropWhile_sublist _).length_le
          simp only [List.length_cons] at hlen
          omega
        rw [ih (rest.dropWhile (fun x => (matchHeader x).isNone))
          (acc ++ [(h.1, (⟨h.2, pyStrip (joinNl ([] ++ rest.takeWhile
            (fun x => (matchHeader x).isNone)))⟩ : SecInfo))]) hlen' htl ?_]
        · simp only [List.map_cons, List.nil_append, List.append_assoc,
            List.singleton_append]
        · intro id hidmem p hp
          rcases List.mem_append.mp hp with hp1 | hp2
          · exact hfresh id (List.mem_cons_of_mem _ hidmem) p hp1
          · have : p = (h.1, (⟨h.2, pyStrip (joinNl ([] ++ rest.takeWhile
                (fun x => (matchHeader x).isNone)))⟩ : SecInfo)) := by simpa using hp2
            rw [this]
            intro hcontra
            exact hid id hidmem hcontra

theorem specChunksFuel_length :
    ∀ (fuel : Nat) (L : List String), L.length ≤ fuel →
      (specChunksFuel fuel L).length = (headerLines L).length := by
  intro fuel
  induction fuel with
  | zero =>
    intro L hlen
    have : L = [] := List.length_eq_zero.mp (Nat.le_zero.mp hlen)
    subst this
    rfl
  | succ fu ih =>
    intro L hlen
    cases L with
    | nil => rfl
    | cons l rest =>
      cases hml : matchHeader l with
      | none =>
        have h1 : specChunksFuel (fu + 1) (l :: rest) = specChunksFuel fu rest := by
          simp [specChunksFuel, hml]
        have h2 : headerLines (l :: rest) = headerLines rest := by
          unfold headerLines
          rw [List.filter_cons, if_neg (by rw [hml]; simp)]
        rw [h1, h2]
        exact ih rest (by simpa using Nat.le_of_succ_le_succ hlen)
      | some h =>
        have h1 : specChunksFuel (fu + 1) (l :: rest)
            = (h, rest.takeWhile (fun x => (matchHeader x).isNone))
              :: specChunksFuel fu (rest.dropWhile (fun x => (matchHeader x).isNone)) := by
          simp [specChunksFuel, hml]
        have h2 : headerLines (l :: rest) = l :: headerLines rest := by
          unfold headerLines
          rw [List.filter_cons, if_pos (by rw [hml]; simp)]
        have h3 : headerLines rest
            = headerLines (rest.dropWhile (fun x => (matchHeader x).isNone)) := by
          conv_lhs => rw [show rest = rest.takeWhile (fun x => (matchHeader x).isNone)
            ++ rest.dropWhile (fun x => (matchHeader x).isNone) from
            (List.takeWhile_append_dropWhile (fun x => (matchHeader x).isNone) rest).symm]
          unfold headerLines
          rw [List.filter_append]
          rw [List.filter_eq_nil_iff.mpr, List.nil_append]
          intro a ha
          have := List.mem_takeWhile_imp ha
          simp only [Option.isNone_iff_eq_none] at this
          simp [this]
        have hlen' : (rest.dropWhile (fun x => (matchHeader x).isNone)).length ≤ fu := by
          have hdw : (rest.dropWhile (fun x => (matchHeader x).isNone)).length
              ≤ rest.length := (List.dropWhile_sublist _).length_le
          simp only [List.length_cons] at hlen
          omega
        rw [h1, h2, h3]
        simp only [List.length_cons]
        rw [ih (rest.dropWhile (fun x => (matchHeader x).isNone)) hlen']

/-- **C7 (amended).** The parser's header pattern has *three or four*
dot-separated integer components (not two to four).  For every outline text
whose matching (stripped) header lines carry pairwise-distinct section ids,
the parser yields exactly one entry per matching line — so exactly N
entries for N matching lines — and each entry's description consists
precisely of the stripped non-empty lines strictly between its header line
and the next matching header line, newline-joined (`specEntries`); text
before the first matching header is discarded, and a text with no matching
header yields the empty mapping rather than an error. -/
theorem parse_regulation_file_spec (content : String)
    (hnd : ((specChunks (processedLines content)).map (fun c => c.1.1)).Nodup) :
    parse_regulation_file content = specEntries content
    ∧ (parse_regulation_file content).length
        = (headerLines (processedLines content)).length
    ∧ (headerLines (processedLines content) = [] →
        parse_regulation_file content = []) := by
  have hmain : parse_regulation_file content = specEntries content := by
    unfold parse_regulation_file specEntries specChunks
    unfold specChunks at hnd
    rw [parseRegLines_eq_chunkCont]
    have hfold : ((pySplitNl content).map pyStrip).filter (fun l => !(l == ""))
        = processedLines content := rfl
    rw [hfold]
    rw [chunkCont_none_eq_chunks (processedLines content).length
      (processedLines content) [] le_rfl hnd (by intro id _ p hp; simp at hp)]
    rw [List.nil_append]
  have hlen : (parse_regulation_file content).length
      = (headerLines (processedLines content)).length := by
    rw [hmain]
    unfold specEntries specChunks
    rw [List.length_map]
    exact specChunksFuel_length (processedLines content).length
      (processedLines content) le_rfl
  refine ⟨hmain, hlen, ?_⟩
  intro h0
  have hz : (parse_regulation_file content).length = 0 := by
    rw [hlen, h0]
    rfl
  exact List.length_eq_zero.mp hz

/-- Witness for C7 at a two-section outline with distinct ids. -/
theorem parse_regulation_file_spec_witness :
    ((specChunks (processedLines
        "5.3.1 Title A\nfirst line\nsecond line\n5.3.2 Title B\nthird line")).map
          (fun c => c.1.1)).Nodup
    ∧ parse_regulation_file
        "5.3.1 Title A\nfirst line\nsecond line\n5.3.2 Title B\nthird line"
      = specEntries
        "5.3.1 Title A\nfirst line\nsecond line\n5.3.2 Title B\nthird line"
    ∧ (parse_regulation_file
        "5.3.1 Title A\nfirst line\nsecond line\n5.3.2 Title B\nthird line").length
      = (headerLines (processedLines
        "5.3.1 Title A\nfirst line\nsecond line\n5.3.2 Title B\nthird line")).length :=
  ⟨by decide,
   (parse_regulation_file_spec
     "5.3.1 Title A\nfirst line\nsecond line\n5.3.2 Title B\nthird line" (by decide)).1,
   (parse_regulation_file_spec
     "5.3.1 Title A\nfirst line\nsecond line\n5.3.2 Title B\nthird line" (by decide)).2.1⟩

/-! ## Rate-limit retry loops (C3)

Three sites: `process_section` (multi_agent_research.py lines 977-1038),
`writing_node` (multi_agent_section_writer.py lines 917-988) — both
`max_retries = 5`, `base_delay = 2.0` — and `_make_request_with_retry`
(research_paper_search.py lines 60-93, `max_retries = 3`,
`initial_delay = 1.0`).  A raised Python exception is modelled by its
classification-relevant data: whether it is an `openai.RateLimitError`
instance, its type name, its message, and its `__cause__`/`__context__`
chain collapsed to the single error the walk would visit next. -/

inductive PyExc where
  | mk (isRateLimitError : Bool) (typeName : String) (message : String)
      (cause : Option PyExc)

def digitsToNat (ds : List Char) : Nat :=
  ds.foldl (fun acc c => acc * 10 + (c.toNat - '0'.toNat)) 0

/-- `\s*second` (case-insensitive) at `r`.  `\s*` is greedy and never needs
to backtrack here: a shorter whitespace run leaves a whitespace character
where the literal `s` is required. -/
def secTail (r : List Char) : Bool :=
  prefixAt "second".data ((r.dropWhile isPyWs).map Char.toLower)

/-- A match of `(\d+\.?\d*)\s*seconds?` starting exactly here.  The greedy
runs are maximal without loss: a shortened `\d+`/`\d*` run leaves a digit,
and a skipped `\.?` leaves a dot, where `\s*second` can match neither. -/
def waitMatchAt (l : List Char) : Option ℚ :=
  let ds := l.takeWhile Char.isDigit
  if ds.isEmpty then none
  else
    match l.drop ds.length with
    | '.' :: r1 =>
      let fs := r1.takeWhile Char.isDigit
      if secTail (r1.drop fs.length) then
        some ((digitsToNat ds : ℚ) + (digitsToNat fs : ℚ) / (10 : ℚ) ^ fs.length)
      else none
    | r0 => if secTail r0 then some (digitsToNat ds : ℚ) else none

/-- `re.search(r'(\d+\.?\d*)\s*seconds?', msg, re.IGNORECASE)` (line 1013):
leftmost position with a match wins. -/
def scanWait : List Char → Option ℚ
  | [] => none
  | c :: rest =>
    match waitMatchAt (c :: rest) with
    | some v => some v
    | none => scanWait rest

def parseWaitSeconds (msg : String) : Option ℚ := scanWait msg.data

/-- The exception-chain walk of `process_section` lines 996-1020: returns
(is_rate_limit, wait_time), `wait_time` being the parsed hint plus the
one-second buffer from line 1015. -/
def classify_rate_limit : PyExc → Bool × Option ℚ
  | PyExc.mk inst ty msg cause =>
    if inst then (true, none)
    else if strContains ty "RateLimit" || strContains (pyLower ty) "rate_limit" then
      (true, none)
    else if strContains (pyLower msg) "rate limit" || strContains (pyLower msg) "429"
        || strContains (pyLower msg) "rate_limit" then
      (true, (parseWaitSeconds msg).map (fun v => v + 1))
    else
      match cause with
      | some c => classify_rate_limit c
      | none => (false, none)

/-- The `writing_node` variant (lines 937-970) additionally stops the walk
— without marking a rate limit — when the message looks like a
context-length error. -/
def classify_rate_limit_writing : PyExc → Bool × Option ℚ
  | PyExc.mk inst ty msg cause =>
    if inst then (true, none)
    else if strContains ty "RateLimit" || strContains (pyLower ty) "rate_limit" then
      (true, none)
    else if strContains (pyLower msg) "rate limit" || strContains (pyLower msg) "429"
        || strContains (pyLower msg) "rate_limit" then
      (true, (parseWaitSeconds msg).map (fun v => v + 1))
    else if strContains (pyLower msg) "context_length"
        || (strContains (pyLower msg) "token"
            && (strContains (pyLower msg) "limit"
                || strContains (pyLower msg) "exceeded")) then
      (false, none)
    else
      match cause with
      | some c => classify_rate_limit_writing c
      | none => (false, none)

/-- The sleep computed at lines 1022-1027: the wait hint when present and
truthy, else exponential backoff `base_delay * 2 ** attempt`. -/
def rlDelay (base_delay : ℚ) (attempt : Nat) (wait_time : Option ℚ) : ℚ :=
  match wait_time with
  | some w => if w == 0 then base_delay * 2 ^ attempt else w
  | none => base_delay * 2 ^ attempt

/-- The `raise Exception("Failed to get result after ...")` at line 1038,
reachable only when the loop body never ran. -/
def failedResultExc : PyExc := PyExc.mk false "Exception" "Failed to get result" none

/-- The `for attempt in range(max_retries)` retry loop shared by the two
generation sites, parameterised by the classifier and by the outcome of
each attempt's call; returns the result (or the raised error) and the list
of sleeps performed. -/
def genRetryGo {α : Type} (classify : PyExc → Bool × Option ℚ) (maxRetries : Nat)
    (base_delay : ℚ) (outcomes : Nat → Except PyExc α) :
    Nat → Nat → List ℚ → Except PyExc α × List ℚ
  | _, 0, sleeps => (Except.error failedResultExc, sleeps)
  | attempt, rem + 1, sleeps =>
    match outcomes attempt with
    | Except.ok v => (Except.ok v, sleeps)
    | Except.error e =>
      let c := classify e
      if c.1 && decide (attempt < maxRetries - 1) then
        genRetryGo classify maxRetries base_delay outcomes (attempt + 1) rem
          (sleeps ++ [rlDelay base_delay attempt c.2])
      else (Except.error e, sleeps)

/-- `process_section`'s loop: `max_retries = 5`, `base_delay = 2.0`. -/
def gen_call_with_retry {α : Type} (outcomes : Nat → Except PyExc α) :
    Except PyExc α × List ℚ :=
  genRetryGo classify_rate_limit 5 2 outcomes 0 5 []

/-- `writing_node`'s loop: same constants, writing classifier. -/
def writing_call_with_retry {α : Type} (outcomes : Nat → Except PyExc α) :
    Except PyExc α × List ℚ :=
  genRetryGo classify_rate_limit_writing 5 2 outcomes 0 5 []

inductive HttpOutcome (α : Type) where
  | resp (status : Nat) (val : α)
  | reqError (e : PyExc)

/-- `response.raise_for_status()`'s `HTTPError` (a `RequestException`). -/
def httpErrorFor (status : Nat) : PyExc :=
  PyExc.mk false "HTTPError" ("status " ++ toString status) none

/-- `_make_request_with_retry`'s loop.  A 429 sleeps
`initial_delay * 2 ** attempt` and retries while attempts remain, else
`raise_for_status` raises (and the surrounding `except RequestException`
clause re-raises at the last attempt); any other 4xx/5xx raises into the
same clause, which sleeps the same backoff and retries or re-raises; a
request exception likewise; a sub-400 response is returned. -/
def httpRetryGo {α : Type} (maxRetries : Nat) (initial_delay : ℚ)
    (outcomes : Nat → HttpOutcome α) :
    Nat → Nat → List ℚ → Except PyExc α × List ℚ
  | _, 0, sleeps =>
    (Except.error (PyExc.mk false "RequestException" "Max retries exceeded" none), sleeps)
  | attempt, rem + 1, sleeps =>
    match outcomes attempt with
    | HttpOutcome.resp status v =>
      if status == 429 then
        if decide (attempt < maxRetries - 1) then
          httpRetryGo maxRetries initial_delay outcomes (attempt + 1) rem
            (sleeps ++ [initial_delay * 2 ^ attempt])
        else (Except.error (httpErrorFor status), sleeps)
      else if 400 ≤ status then
        if decide (attempt < maxRetries - 1) then
          httpRetryGo maxRetries initial_delay outcomes (attempt + 1) rem
            (sleeps ++ [initial_delay * 2 ^ attempt])
        else (Except.error (httpErrorFor status), sleeps)
      else (Except.ok v, sleeps)
    | HttpOutcome.reqError e =>
      if decide (attempt < maxRetries - 1) then
        httpRetryGo maxRetries initial_delay outcomes (attempt + 1) rem
          (sleeps ++ [initial_delay * 2 ^ attempt])
      else (Except.error e, sleeps)

/-- `max_retries = 3`, `initial_delay = 1.0`. -/
def make_request_with_retry {α : Type} (outcomes : Nat → HttpOutcome α) :
    Except PyExc α × List ℚ :=
  httpRetryGo 3 1 outcomes 0 3 []

/-- **C3 counterexample.** For an error message carrying the hint "retry
after 1 seconds", the sleep before retry 2 (attempt index 1) is the parsed
hint plus the one-second buffer — 2 seconds — whereas the claimed
`max(hint, base_delay * 2^attempt)` would be `max 1 4 = 4` (and
`max 2 4 = 4` even reading "hint" as the buffered value). -/
theorem retry_sleep_counterexample :
    (gen_call_with_retry (fun _ =>
      (Except.error (PyExc.mk false "Exception"
        "rate limit exceeded, retry after 1 seconds" none) : Except PyExc Unit))).2
      = [2, 2, 2, 2]
    ∧ max (1 : ℚ) (2 * 2 ^ 1) = 4
    ∧ max (2 : ℚ) (2 * 2 ^ 1) = 4
    ∧ ((2 : ℚ) ≠ 4) := by
  have hparse : parseWaitSeconds "rate limit exceeded, retry after 1 seconds"
      = some ((1 : Nat) : ℚ) := rfl
  have hclass : classify_rate_limit (PyExc.mk false "Exception"
      "rate limit exceeded, retry after 1 seconds" none)
      = (true, some (((1 : Nat) : ℚ) + 1)) := by
    have h1 : strContains "Exception" "RateLimit" = false := by decide
    have h2 : strContains (pyLower "Exception") "rate_limit" = false := by decide
    have h3 : strContains
        (pyLower "rate limit exceeded, retry after 1 seconds") "rate limit" = true := by
      decide
    simp [classify_rate_limit, h1, h2, h3, hparse]
  have hrl : ∀ i : Nat, rlDelay 2 i (some ((1 : ℚ) + 1)) = 2 := by
    intro i
    have hstep : rlDelay 2 i (some ((1 : ℚ) + 1))
        = if ((1 : ℚ) + 1) == 0 then 2 * 2 ^ i else (1 : ℚ) + 1 := rfl
    rw [hstep, if_neg (by simp [beq_eq_false_iff_ne])]
    norm_num
  refine ⟨?_, by norm_num, by norm_num, by norm_num⟩
  simp [gen_call_with_retry, genRetryGo, hclass]
  exact ⟨hrl 0, hrl 1, hrl 2, hrl 3⟩

/-- **C3 (amended).** When an error is classified as a rate limit and
retries remain, the loop sleeps the parsed "retry after N seconds" hint
plus a one-second buffer when a hint was parsed (and truthy), otherwise
`base_delay * 2^attempt`; the retry budget is 5 attempts for the two
text-generation call sites and 3 for the literature-search HTTP site, and
exhausting the budget surfaces the last error as that task's failure. -/
theorem retry_loop_spec :
    (∀ es : Nat → PyExc, (∀ n, (classify_rate_limit (es n)).1 = true) →
      gen_call_with_retry (fun n => (Except.error (es n) : Except PyExc Unit))
        = (Except.error (es 4),
           [rlDelay 2 0 (classify_rate_limit (es 0)).2,
            rlDelay 2 1 (classify_rate_limit (es 1)).2,
            rlDelay 2 2 (classify_rate_limit (es 2)).2,
            rlDelay 2 3 (classify_rate_limit (es 3)).2]))
    ∧ (∀ es : Nat → PyExc, (∀ n, (classify_rate_limit_writing (es n)).1 = true) →
      writing_call_with_retry (fun n => (Except.error (es n) : Except PyExc Unit))
        = (Except.error (es 4),
           [rlDelay 2 0 (classify_rate_limit_writing (es 0)).2,
            rlDelay 2 1 (classify_rate_limit_writing (es 1)).2,
            rlDelay 2 2 (classify_rate_limit_writing (es 2)).2,
            rlDelay 2 3 (classify_rate_limit_writing (es 3)).2]))
    ∧ (∀ (b : ℚ) (a : Nat) (w : ℚ), w ≠ 0 →
        rlDelay b a (some w) = w ∧ rlDelay b a none = b * 2 ^ a)
    ∧ (∀ es : Nat → PyExc,
        make_request_with_retry
            (fun n => (HttpOutcome.reqError (es n) : HttpOutcome Unit))
          = (Except.error (es 2), [1 * 2 ^ 0, 1 * 2 ^ 1]))
    ∧ make_request_with_retry (fun _ => (HttpOutcome.resp 429 () : HttpOutcome Unit))
        = (Except.error (httpErrorFor 429), [1 * 2 ^ 0, 1 * 2 ^ 1]) := by
  refine ⟨?_, ?_, ?_, ?_, ?_⟩
  · intro es h
    simp [gen_call_with_retry, genRetryGo, h 0, h 1, h 2, h 3, h 4]
  · intro es h
    simp [writing_call_with_retry, genRetryGo, h 0, h 1, h 2, h 3, h 4]
  · intro b a w hw
    constructor
    · have hstep : rlDelay b a (some w) = if w == 0 then b * 2 ^ a else w := rfl
      rw [hstep, if_neg (by simpa using hw)]
    · rfl
  · intro es
    simp [make_request_with_retry, httpRetryGo]
  · simp [make_request_with_retry, httpRetryGo]

/-- Witness for C3 (amended) at a concrete always-rate-limited error. -/
theorem retry_loop_spec_witness :
    (∀ n : Nat, (classify_rate_limit ((fun _ => PyExc.mk false "Exception"
        "rate limit exceeded, retry after 1 seconds" none) n)).1 = true)
    ∧ gen_call_with_retry (fun n => (Except.error
        ((fun _ => PyExc.mk false "Exception"
          "rate limit exceeded, retry after 1 seconds" none) n) : Except PyExc Unit))
      = (Except.error (PyExc.mk false "Exception"
          "rate limit exceeded, retry after 1 seconds" none),
         [rlDelay 2 0 (classify_rate_limit (PyExc.mk false "Exception"
            "rate limit exceeded, retry after 1 seconds" none)).2,
          rlDelay 2 1 (classify_rate_limit (PyExc.mk false "Exception"
            "rate limit exceeded, retry after 1 seconds" none)).2,
          rlDelay 2 2 (classify_rate_limit (PyExc.mk false "Exception"
            "rate limit exceeded, retry after 1 seconds" none)).2,
          rlDelay 2 3 (classify_rate_limit (PyExc.mk false "Exception"
            "rate limit exceeded, retry after 1 seconds" none)).2])
    ∧ ((3 : ℚ) ≠ 0 ∧ rlDelay 2 1 (some 3) = 3) :=
  ⟨fun _ => (by decide : (classify_rate_limit (PyExc.mk false "Exception"
      "rate limit exceeded, retry after 1 seconds" none)).1 = true),
   retry_loop_spec.1 (fun _ => PyExc.mk false "Exception"
     "rate limit exceeded, retry after 1 seconds" none)
     (fun _ => (by decide : (classify_rate_limit (PyExc.mk false "Exception"
       "rate limit exceeded, retry after 1 seconds" none)).1 = true)),
   by norm_num, (retry_loop_spec.2.2.1 2 1 3 (by norm_num)).1⟩

/-! ## Section dependency graph and topological sort
(src/section25/multi_agent_section_writer.py lines 284-388) -/

/-- `get_section_dependencies` (lines 284-305): the static table, in source
order. -/
def get_section_dependencies : List (String × List String) :=
  [("2.5", []),
   ("2.5.1", []),
   ("2.5.2", ["2.5.1"]),
   ("2.5.3", ["2.5.2"]),
   ("2.5.4", ["2.5.3"]),
   ("2.5.5", ["2.5.3", "2.5.4"]),
   ("2.5.6", ["2.5.4", "2.5.5"]),
   ("2.5.6.1", ["2.5.1", "2.5.6"]),
   ("2.5.6.1.1", ["2.5.6.1"]),
   ("2.5.6.1.2", ["2.5.6.1"]),
   ("2.5.6.2", ["2.5.4", "2.5.6"]),
   ("2.5.6.3", ["2.5.5", "2.5.6"]),
   ("2.5.6.4", ["2.5.4", "2.5.5", "2.5.6.2", "2.5.6.3", "2.5.6"]),
   ("2.5.7", [])]

/-- `dependencies.get(section, [])`. -/
def depsOf (s : String) : List String :=
  (alookup get_section_dependencies s).getD []

/-- Lines 358-362: `in_degree[section]`, counting the distinct declared
prerequisites (`graph` values are `set(...)`) that are in the input list. -/
def inDegreeInit (sections : List String) (t : String) : Nat :=
  ((depsOf t).dedup.filter (fun d => sections.contains d)).length

/-- Lines 374-379, one emitted section `s`: walk the input list, decrement
the in-degree of every section having `s` among its prerequisites, and
append to the queue (in input order) those whose in-degree hits zero. -/
def kahnDecStep (s : String) (acc : (String → Int) × List String) (t : String) :
    (String → Int) × List String :=
  if (depsOf t).contains s then
    ((fun x => if x == t then acc.1 t - 1 else acc.1 x),
     if acc.1 t - 1 == 0 then acc.2 ++ [t] else acc.2)
  else acc

def kahnStep (sections : List String) (s : String) (inDeg : String → Int) :
    (String → Int) × List String :=
  sections.foldl (kahnDecStep s) (inDeg, [])

/-- The `while queue:` loop (lines 368-379): sort the queue, pop the head,
decrement dependents, append the newly ready.  Every iteration emits one
section and (as the invariants below show) each section enters the queue at
most once, so `sections.length` fuel always runs the loop to completion. -/
def kahnLoop (sections : List String) :
    Nat → List String → (String → Int) → List String → List String
  | 0, _, _, result => result
  | fuel + 1, queue, inDeg, result =>
    match List.insertionSort (fun a b => a ≤ b) queue with
    | [] => result
    | s :: rest =>
      kahnLoop sections fuel (rest ++ (kahnStep sections s inDeg).2)
        (kahnStep sections s inDeg).1 (result ++ [s])

/-- `topological_sort_sections` (lines 340-388). -/
def topological_sort_sections (sections : List String) : List String :=
  let inDeg0 : String → Int := fun t => (inDegreeInit sections t : Int)
  let queue0 := sections.filter (fun t => inDegreeInit sections t == 0)
  let result := kahnLoop sections sections.length queue0 inDeg0 []
  if result.length == sections.length then result
  else result ++ sections.filter (fun s => !(result.contains s))

/-! Spec-side view: the set of ready sections after a given emission
history, and the greedy loop that always emits the lexicographically
smallest ready section. -/

/-- The sections all of whose in-input declared prerequisites are already
emitted (and which are themselves unemitted). -/
def readyNodes (sections emitted : List String) : List String :=
  sections.filter (fun t =>
    !(emitted.contains t)
      && ((depsOf t).filter (fun d => sections.contains d)).all
          (fun d => emitted.contains d))

/-- Greedy reference schedule: repeatedly emit the smallest ready section. -/
def greedyLex (sections : List String) : Nat → List String → List String
  | 0, emitted => emitted
  | fuel + 1, emitted =>
    match List.insertionSort (fun a b => a ≤ b) (readyNodes sections emitted) with
    | [] => emitted
    | m :: _ => greedyLex sections fuel (emitted ++ [m])

/-- Distinct in-input prerequisites not yet emitted. -/
def remDeg (sections emitted : List String) (t : String) : Nat :=
  ((depsOf t).dedup.filter
    (fun d => sections.contains d && !(emitted.contains d))).length

theorem contains_false_iff {α : Type} [BEq α] [LawfulBEq α] (l : List α) (a : α) :
    l.contains a = false ↔ a ∉ l := by
  rw [Bool.eq_false_iff]
  exact not_congr (contains_true_iff l a)

theorem mem_readyNodes_iff (sections emitted : List String) (t : String) :
    t ∈ readyNodes sections emitted
      ↔ t ∈ sections ∧ t ∉ emitted ∧ remDeg sections emitted t = 0 := by
  unfold readyNodes remDeg
  rw [List.mem_filter, List.length_eq_zero, List.filter_eq_nil_iff]
  constructor
  · rintro ⟨hs, hcond⟩
    rw [Bool.and_eq_true, Bool.not_eq_true', List.all_eq_true] at hcond
    refine ⟨hs, (contains_false_iff _ _).mp hcond.1, ?_⟩
    intro d hd
    rw [Bool.and_eq_true, Bool.not_eq_true']
    rintro ⟨hds, hde⟩
    have hdmem : d ∈ (depsOf t).filter (fun d => sections.contains d) := by
      rw [List.mem_filter]
      exact ⟨List.mem_dedup.mp hd, hds⟩
    have h2 := hcond.2 d hdmem
    rw [h2] at hde
    cases hde
  · rintro ⟨hs, hne, hz⟩
    refine ⟨hs, ?_⟩
    rw [Bool.and_eq_true, Bool.not_eq_true', List.all_eq_true]
    refine ⟨(contains_false_iff _ _).mpr hne, ?_⟩
    intro d hd
    rw [List.mem_filter] at hd
    by_cases hde : d ∈ emitted
    · exact (contains_true_iff _ _).mpr hde
    · exfalso
      have := hz d (List.mem_dedup.mpr hd.1)
      rw [Bool.and_eq_true, Bool.not_eq_true'] at this
      exact absurd ⟨hd.2, (contains_false_iff _ _).mpr hde⟩ this

theorem length_filter_ne_of_nodup_mem :
    ∀ (m : List String) (s : String), m.Nodup → s ∈ m →
      (m.filter (fun d => !(d == s))).length = m.length - 1 := by
  intro m
  induction m with
  | nil => intro s _ hm; cases hm
  | cons a m' ih =>
    intro s hnd hm
    obtain ⟨ha, hnd'⟩ := List.pairwise_cons.mp hnd
    rw [List.filter_cons]
    by_cases has : a = s
    · rw [if_neg (by simp [has])]
      have : m'.filter (fun d => !(d == s)) = m' := by
        rw [List.filter_eq_self]
        intro d hd
        simp only [Bool.not_eq_true', beq_eq_false_iff_ne, ne_eq]
        intro hds
        exact ha d hd (by rw [has, hds])
      rw [this]
      simp
    · rw [if_pos (by simp [has])]
      have hm' : s ∈ m' := by
        rcases List.mem_cons.mp hm with h | h
        · exact absurd h.symm has
        · exact h
      rw [List.length_cons, ih s hnd' hm']
      have : 1 ≤ m'.length := List.length_pos.mpr (List.ne_nil_of_mem hm')
      simp only [List.length_cons]
      omega

theorem filter_emitted_append (sections emitted : List String) (s t : String) :
    (depsOf t).dedup.filter
        (fun d => sections.contains d && !((emitted ++ [s]).contains d))
      = ((depsOf t).dedup.filter
          (fun d => sections.contains d && !(emitted.contains d))).filter
        (fun d => !(d == s)) := by
  rw [List.filter_filter]
  refine List.filter_congr (fun d _ => ?_)
  have hca : (emitted ++ [s]).contains d = (emitted.contains d || (d == s)) := by
    by_cases hds : d = s <;> simp [hds]
  rw [hca]
  cases h1 : sections.contains d <;> cases h2 : emitted.contains d <;>
    cases h3 : (d == s) <;> rfl

/-- Effect of emitting `s` on the remaining-prerequisite count. -/
theorem remDeg_append (sections emitted : List String) (s t : String)
    (hs : s ∈ sections) (hns : s ∉ emitted) :
    (s ∈ depsOf t →
      remDeg sections (emitted ++ [s]) t = remDeg sections emitted t - 1
        ∧ 1 ≤ remDeg sections emitted t)
    ∧ (s ∉ depsOf t →
      remDeg sections (emitted ++ [s]) t = remDeg sections emitted t) := by
  unfold remDeg
  rw [filter_emitted_append]
  set m := (depsOf t).dedup.filter
    (fun d => sections.contains d && !(emitted.contains d)) with hm
  have hmnd : m.Nodup := (List.nodup_dedup (depsOf t)).filter _
  constructor
  · intro hdep
    have hsm : s ∈ m := by
      rw [hm, List.mem_filter]
      refine ⟨List.mem_dedup.mpr hdep, ?_⟩
      rw [(contains_true_iff _ _).mpr hs, (contains_false_iff _ _).mpr hns]
      rfl
    refine ⟨length_filter_ne_of_nodup_mem m s hmnd hsm, ?_⟩
    exact List.length_pos.mpr (List.ne_nil_of_mem hsm)
  · intro hdep
    have hsm : s ∉ m := by
      rw [hm, List.mem_filter]
      rintro ⟨hmem, -⟩
      exact hdep (List.mem_dedup.mp hmem)
    rw [List.filter_eq_self.mpr]
    intro d hd
    simp only [Bool.not_eq_true', beq_eq_false_iff_ne, ne_eq]
    intro hds
    exact hsm (hds ▸ hd)

/-- Emitting more sections never increases the remaining count; in
particular an already-ready section stays at zero. -/
theorem remDeg_append_le (sections emitted : List String) (s t : String) :
    remDeg sections (emitted ++ [s]) t ≤ remDeg sections emitted t := by
  unfold remDeg
  rw [filter_emitted_append]
  exact List.length_filter_le _ _

/-- `kahnStep`'s fold, characterised: every input section with `s` among
its prerequisites is decremented once, and exactly those whose in-degree
reaches zero are appended, in input order. -/
theorem kahnDecStep_foldl (s : String) :
    ∀ (ts : List String) (f : String → Int) (q : List String), ts.Nodup →
      (∀ x, (ts.foldl (kahnDecStep s) (f, q)).1 x
        = if x ∈ ts ∧ s ∈ depsOf x then f x - 1 else f x)
      ∧ (ts.foldl (kahnDecStep s) (f, q)).2
        = q ++ ts.filter (fun t => (depsOf t).contains s && (f t - 1 == 0)) := by
  intro ts
  induction ts with
  | nil =>
    intro f q _
    exact ⟨fun x => by simp, by simp⟩
  | cons t ts' ih =>
    intro f q hnd
    obtain ⟨hht, hnd'⟩ := List.pairwise_cons.mp hnd
    rw [List.foldl_cons]
    by_cases hc : (depsOf t).contains s = true
    · have hstep : kahnDecStep s (f, q) t
          = ((fun x => if x == t then f t - 1 else f x),
             if f t - 1 == 0 then q ++ [t] else q) := by
        unfold kahnDecStep
        rw [if_pos hc]
      rw [hstep]
      obtain ⟨ih1, ih2⟩ := ih (fun x => if x == t then f t - 1 else f x)
        (if f t - 1 == 0 then q ++ [t] else q) hnd'
      have hdep : s ∈ depsOf t := (contains_true_iff _ _).mp hc
      constructor
      · intro x
        rw [ih1 x]
        by_cases hxt : x = t
        · subst hxt
          have hxts' : x ∉ ts' := fun hmem => (hht x hmem) rfl
          simp [hxts', hdep]
        · have hbt : (x == t) = false := beq_eq_false_iff_ne.mpr hxt
          simp only [hbt, Bool.false_eq_true, if_false]
          by_cases hx : x ∈ ts' ∧ s ∈ depsOf x
          · have hx2 : x ∈ t :: ts' ∧ s ∈ depsOf x :=
              ⟨List.mem_cons_of_mem t hx.1, hx.2⟩
            rw [if_pos hx, if_pos hx2]
          · have hx2 : ¬(x ∈ t :: ts' ∧ s ∈ depsOf x) := by
              rintro ⟨h1, h2⟩
              rcases List.mem_cons.mp h1 with h | h
              · exact hxt h
              · exact hx ⟨h, h2⟩
            rw [if_neg hx, if_neg hx2]
      · rw [ih2]
        have hfc : ts'.filter (fun u => (depsOf u).contains s
              && ((if (u == t) = true then f t - 1 else f u) - 1 == 0))
            = ts'.filter (fun u => (depsOf u).contains s && (f u - 1 == 0)) := by
          refine List.filter_congr (fun u hu => ?_)
          have hut : (u == t) = false := beq_eq_false_iff_ne.mpr ((hht u hu).symm)
          simp only [hut, Bool.false_eq_true, if_false]
        rw [hfc, List.filter_cons]
        have hpt : ((depsOf t).contains s && (f t - 1 == 0)) = (f t - 1 == 0) := by
          rw [hc, Bool.true_and]
        rw [hpt]
        by_cases hz : (f t - 1 == 0) = true
        · rw [if_pos hz, if_pos hz, List.append_assoc]
          rfl
        · rw [if_neg hz, if_neg hz]
    · have hstep : kahnDecStep s (f, q) t = (f, q) := by
        unfold kahnDecStep
        rw [if_neg hc]
      rw [hstep]
      obtain ⟨ih1, ih2⟩ := ih f q hnd'
      constructor
      · intro x
        rw [ih1 x]
        by_cases hx : x ∈ ts' ∧ s ∈ depsOf x
        · have hx2 : x ∈ t :: ts' ∧ s ∈ depsOf x := ⟨List.mem_cons_of_mem t hx.1, hx.2⟩
          rw [if_pos hx, if_pos hx2]
        · have hx2 : ¬(x ∈ t :: ts' ∧ s ∈ depsOf x) := by
            rintro ⟨h1, h2⟩
            rcases List.mem_cons.mp h1 with h | h
            · subst h
              exact hc ((contains_true_iff _ _).mpr h2)
            · exact hx ⟨h, h2⟩
          rw [if_neg hx, if_neg hx2]
      · rw [ih2, List.filter_cons, if_neg (by
          rw [Bool.and_eq_true]
          rintro ⟨h1, -⟩
          exact hc h1)]

/-- One Kahn iteration preserves the loop invariants and emits the same
section as the greedy reference, so the whole loop computes `greedyLex`. -/
theorem kahnLoop_eq_greedy (sections : List String) (hsnd : sections.Nodup) :
    ∀ (fuel : Nat) (queue : List String) (inDeg : String → Int)
      (result : List String),
      queue.Nodup →
      (∀ t, t ∈ queue ↔ t ∈ readyNodes sections result) →
      (∀ t ∈ sections, inDeg t = (remDeg sections result t : Int)) →
      (∀ t ∈ result, t ∈ sections) →
      result.Nodup →
      (∀ t ∈ result, remDeg sections result t = 0) →
      kahnLoop sections fuel queue inDeg result = greedyLex sections fuel result := by
  intro fuel
  induction fuel with
  | zero => intro queue inDeg result _ _ _ _ _ _; rfl
  | succ fuel ih =>
    intro queue inDeg result hqnd hqiff hin hres hrnd hrz
    have hreadynd : (readyNodes sections result).Nodup := hsnd.filter _
    have hperm : queue.Perm (readyNodes sections result) :=
      (List.perm_ext_iff_of_nodup hqnd hreadynd).mpr hqiff
    have hsort : List.insertionSort (fun a b => a ≤ b) queue
        = List.insertionSort (fun a b => a ≤ b) (readyNodes sections result) := by
      refine @List.eq_of_perm_of_sorted String (fun a b => a ≤ b)
        ⟨fun a b h1 h2 => le_antisymm h1 h2⟩ _ _ ?_ ?_ ?_
      · exact (List.perm_insertionSort _ queue).trans
          (hperm.trans (List.perm_insertionSort _ _).symm)
      · exact List.sorted_insertionSort _ _
      · exact List.sorted_insertionSort _ _
    have hk : kahnLoop sections (fuel + 1) queue inDeg result
        = match List.insertionSort (fun a b => a ≤ b) queue with
          | [] => result
          | s :: rest =>
            kahnLoop sections fuel (rest ++ (kahnStep sections s inDeg).2)
              (kahnStep sections s inDeg).1 (result ++ [s]) := rfl
    have hg : greedyLex sections (fuel + 1) result
        = match List.insertionSort (fun a b => a ≤ b)
            (readyNodes sections result) with
          | [] => result
          | m :: _ => greedyLex sections fuel (result ++ [m]) := rfl
    rw [hk, hg, hsort]
    cases hcase : List.insertionSort (fun a b => a ≤ b)
        (readyNodes sections result) with
    | nil => rfl
    | cons s rest =>
      have hsortnd : (s :: rest).Nodup := by
        have h := ((List.perm_insertionSort (fun a b => a ≤ b)
          (readyNodes sections result)).nodup_iff).mpr hreadynd
        rw [hcase] at h
        exact h
      obtain ⟨hsrest, hrestnd⟩ := List.pairwise_cons.mp hsortnd
      have hmemsort : ∀ t, t ∈ s :: rest ↔ t ∈ readyNodes sections result := by
        intro t
        rw [← hcase]
        exact (List.perm_insertionSort _ _).mem_iff
      have hsready : s ∈ readyNodes sections result :=
        (hmemsort s).mp (List.mem_cons_self s rest)
      obtain ⟨hssec, hsnr, hsrz⟩ := (mem_readyNodes_iff _ _ _).mp hsready
      obtain ⟨hstep1, hstep2⟩ := kahnDecStep_foldl s sections inDeg [] hsnd
      have h1 : ∀ x, (kahnStep sections s inDeg).1 x
          = if x ∈ sections ∧ s ∈ depsOf x then inDeg x - 1 else inDeg x := hstep1
      have h2 : (kahnStep sections s inDeg).2 = sections.filter
          (fun t => (depsOf t).contains s && (inDeg t - 1 == 0)) := by
        rw [show (kahnStep sections s inDeg).2
          = [] ++ sections.filter
              (fun t => (depsOf t).contains s && (inDeg t - 1 == 0)) from hstep2,
          List.nil_append]
      have hqN : ∀ t, t ∈ (kahnStep sections s inDeg).2
          ↔ t ∈ sections ∧ s ∈ depsOf t ∧ remDeg sections result t = 1 := by
        intro t
        rw [h2, List.mem_filter]
        constructor
        · rintro ⟨hts, hp⟩
          rw [Bool.and_eq_true] at hp
          have hdep := (contains_true_iff _ _).mp hp.1
          have hz : inDeg t - 1 = 0 := by
            have h := hp.2
            rwa [beq_iff_eq] at h
          have hcast := hin t hts
          exact ⟨hts, hdep, by omega⟩
        · rintro ⟨hts, hdep, hone⟩
          refine ⟨hts, ?_⟩
          rw [Bool.and_eq_true]
          refine ⟨(contains_true_iff _ _).mpr hdep, ?_⟩
          rw [beq_iff_eq, hin t hts, hone]
          simp
      have hqiff' : ∀ t, t ∈ rest ++ (kahnStep sections s inDeg).2
          ↔ t ∈ readyNodes sections (result ++ [s]) := by
        intro t
        rw [List.mem_append, mem_readyNodes_iff]
        constructor
        · rintro (hr | hn)
          · have htq : t ∈ readyNodes sections result :=
              (hmemsort t).mp (List.mem_cons_of_mem s hr)
            obtain ⟨hts, htnr, htz⟩ := (mem_readyNodes_iff _ _ _).mp htq
            have hne : t ≠ s := fun h => hsrest t hr h.symm
            refine ⟨hts, ?_, ?_⟩
            · rw [List.mem_append, List.mem_singleton]
              rintro (h | h)
              · exact htnr h
              · exact hne h
            · have hle := remDeg_append_le sections result s t
              omega
          · obtain ⟨hts, hdep, hone⟩ := (hqN t).mp hn
            have hd := (remDeg_append sections result s t hssec hsnr).1 hdep
            refine ⟨hts, ?_, ?_⟩
            · rw [List.mem_append, List.mem_singleton]
              rintro (h | h)
              · have := hrz t h; omega
              · rw [h] at hone; omega
            · omega
        · rintro ⟨hts, htnr', htz'⟩
          by_cases hdep : s ∈ depsOf t
          · right
            rw [hqN t]
            have hd := (remDeg_append sections result s t hssec hsnr).1 hdep
            exact ⟨hts, hdep, by omega⟩
          · left
            have heq := (remDeg_append sections result s t hssec hsnr).2 hdep
            have htnr : t ∉ result := fun h =>
              htnr' (by rw [List.mem_append]; exact Or.inl h)
            have hne : t ≠ s := fun h =>
              htnr' (by rw [List.mem_append, List.mem_singleton]; exact Or.inr h)
            have htready : t ∈ readyNodes sections result := by
              rw [mem_readyNodes_iff]
              exact ⟨hts, htnr, by omega⟩
            have hmem := (hmemsort t).mpr htready
            rcases List.mem_cons.mp hmem with h | h
            · exact absurd h hne
            · exact h
      have hin' : ∀ t ∈ sections, (kahnStep sections s inDeg).1 t
          = (remDeg sections (result ++ [s]) t : Int) := by
        intro t hts
        rw [h1 t]
        by_cases hdep : s ∈ depsOf t
        · have hcnd : t ∈ sections ∧ s ∈ depsOf t := ⟨hts, hdep⟩
          rw [if_pos hcnd]
          have hd := (remDeg_append sections result s t hssec hsnr).1 hdep
          rw [hin t hts, hd.1]
          have h2le := hd.2
          omega
        · rw [if_neg (fun h => hdep h.2)]
          rw [hin t hts, (remDeg_append sections result s t hssec hsnr).2 hdep]
      have hqnd' : (rest ++ (kahnStep sections s inDeg).2).Nodup := by
        refine List.Nodup.append hrestnd ?_ ?_
        · rw [h2]; exact hsnd.filter _
        · intro t htr htn
          obtain ⟨hts, hdep, hone⟩ := (hqN t).mp htn
          have htq : t ∈ readyNodes sections result :=
            (hmemsort t).mp (List.mem_cons_of_mem s htr)
          obtain ⟨-, -, htz⟩ := (mem_readyNodes_iff _ _ _).mp htq
          omega
      have hres' : ∀ t ∈ result ++ [s], t ∈ sections := by
        intro t ht
        rcases List.mem_append.mp ht with h | h
        · exact hres t h
        · rw [List.mem_singleton] at h
          rw [h]; exact hssec
      have hrnd' : (result ++ [s]).Nodup := by
        refine List.Nodup.append hrnd (List.nodup_singleton s) ?_
        intro t htr hts
        rw [List.mem_singleton] at hts
        rw [hts] at htr
        exact hsnr htr
      have hrz' : ∀ t ∈ result ++ [s],
          remDeg sections (result ++ [s]) t = 0 := by
        intro t ht
        have hle := remDeg_append_le sections result s t
        rcases List.mem_append.mp ht with h | h
        · have := hrz t h; omega
        · rw [List.mem_singleton] at h
          rw [h]
          have hle2 := remDeg_append_le sections result s s
          omega
      exact ih _ _ _ hqnd' hqiff' hin' hres' hrnd' hrz'

/-- A rank certificate for the static dependency table: every declared
prerequisite has strictly smaller rank, so the table is acyclic. -/
def sectionRank : List (String × Nat) :=
  [("2.5", 0),
   ("2.5.1", 0),
   ("2.5.2", 1),
   ("2.5.3", 2),
   ("2.5.4", 3),
   ("2.5.5", 4),
   ("2.5.6", 5),
   ("2.5.6.1", 6),
   ("2.5.6.1.1", 7),
   ("2.5.6.1.2", 7),
   ("2.5.6.2", 6),
   ("2.5.6.3", 6),
   ("2.5.6.4", 7),
   ("2.5.7", 0)]

def rankOf (s : String) : Nat := (alookup sectionRank s).getD 0

theorem rank_decreasing (t p : String) (hp : p ∈ depsOf t) :
    rankOf p < rankOf t := by
  have htab : ∀ e ∈ get_section_dependencies, ∀ q ∈ e.2,
      rankOf q < rankOf e.1 := by decide
  unfold depsOf at hp
  cases halk : alookup get_section_dependencies t with
  | none =>
    rw [halk] at hp
    exact absurd hp (List.not_mem_nil p)
  | some l =>
    rw [halk] at hp
    unfold alookup at halk
    obtain ⟨e, hfind, hsnd⟩ := Option.map_eq_some'.mp halk
    have hmem : e ∈ get_section_dependencies := List.mem_of_find?_eq_some hfind
    have hkey : e.1 = t := by
      have h := List.find?_some hfind
      rwa [beq_iff_eq] at h
    have := htab e hmem p (by rw [hsnd]; exact hp)
    rwa [hkey] at this

/-- The greedy schedule only appends ready (hence fresh, in-input) sections. -/
theorem greedyLex_nodup_sub (sections : List String) :
    ∀ (fuel : Nat) (emitted : List String), emitted.Nodup →
      (∀ t ∈ emitted, t ∈ sections) →
      (greedyLex sections fuel emitted).Nodup
      ∧ ∀ t ∈ greedyLex sections fuel emitted, t ∈ sections := by
  intro fuel
  induction fuel with
  | zero => intro emitted hnd hsub; exact ⟨hnd, hsub⟩
  | succ fuel ih =>
    intro emitted hnd hsub
    have hg : greedyLex sections (fuel + 1) emitted
        = match List.insertionSort (fun a b => a ≤ b)
            (readyNodes sections emitted) with
          | [] => emitted
          | m :: _ => greedyLex sections fuel (emitted ++ [m]) := rfl
    rw [hg]
    cases hcase : List.insertionSort (fun a b => a ≤ b)
        (readyNodes sections emitted) with
    | nil => exact ⟨hnd, hsub⟩
    | cons m rest =>
      have hmem : m ∈ readyNodes sections emitted := by
        have h := List.mem_cons_self m rest
        rw [← hcase] at h
        exact (List.perm_insertionSort _ _).mem_iff.mp h
      obtain ⟨hms, hmnr, -⟩ := (mem_readyNodes_iff _ _ _).mp hmem
      refine ih (emitted ++ [m]) ?_ ?_
      · refine List.Nodup.append hnd (List.nodup_singleton m) ?_
        intro t htr hts
        rw [List.mem_singleton] at hts
        rw [hts] at htr
        exact hmnr htr
      · intro t ht
        rcases List.mem_append.mp ht with h | h
        · exact hsub t h
        · rw [List.mem_singleton] at h
          rw [h]; exact hms

/-- Progress: while some input section is unemitted, a minimal-rank
unemitted section is ready, because all its declared prerequisites have
strictly smaller rank. -/
theorem readyNodes_ne_nil (sections emitted : List String)
    (hsnd : sections.Nodup) (hend : emitted.Nodup)
    (hsub : ∀ t ∈ emitted, t ∈ sections)
    (hlt : emitted.length < sections.length) :
    ∃ m, m ∈ readyNodes sections emitted := by
  have hne : ∃ u, u ∈ sections ∧ u ∉ emitted := by
    by_contra h
    push_neg at h
    have hle := (List.subperm_of_subset hsnd (fun u hu => h u hu)).length_le
    omega
  obtain ⟨u0, hu0s, hu0e⟩ := hne
  have hfne : (sections.filter
      (fun t => !(emitted.contains t))).toFinset.Nonempty := by
    refine ⟨u0, ?_⟩
    rw [List.mem_toFinset, List.mem_filter]
    refine ⟨hu0s, ?_⟩
    rw [Bool.not_eq_true']
    exact (contains_false_iff _ _).mpr hu0e
  obtain ⟨m, hm, hmin⟩ := Finset.exists_min_image _ rankOf hfne
  rw [List.mem_toFinset, List.mem_filter] at hm
  have hms : m ∈ sections := hm.1
  have hmne : m ∉ emitted := by
    have h := hm.2
    rw [Bool.not_eq_true'] at h
    exact (contains_false_iff _ _).mp h
  refine ⟨m, ?_⟩
  rw [mem_readyNodes_iff]
  refine ⟨hms, hmne, ?_⟩
  unfold remDeg
  rw [List.length_eq_zero, List.filter_eq_nil_iff]
  intro d hd hpred
  rw [Bool.and_eq_true] at hpred
  have hds : d ∈ sections := (contains_true_iff _ _).mp hpred.1
  have hdne : d ∉ emitted := by
    have h := hpred.2
    rw [Bool.not_eq_true'] at h
    exact (contains_false_iff _ _).mp h
  have hdmem : d ∈ (sections.filter
      (fun t => !(emitted.contains t))).toFinset := by
    rw [List.mem_toFinset, List.mem_filter]
    refine ⟨hds, ?_⟩
    rw [Bool.not_eq_true']
    exact (contains_false_iff _ _).mpr hdne
  have h1 := hmin d hdmem
  have h2 := rank_decreasing m d (List.mem_dedup.mp hd)
  omega

/-- With `sections.length` fuel the greedy schedule emits every input
section exactly once. -/
theorem greedyLex_length (sections : List String) (hsnd : sections.Nodup) :
    ∀ (fuel : Nat) (emitted : List String), emitted.Nodup →
      (∀ t ∈ emitted, t ∈ sections) →
      sections.length ≤ emitted.length + fuel →
      (greedyLex sections fuel emitted).length = sections.length := by
  intro fuel
  induction fuel with
  | zero =>
    intro emitted hnd hsub hle
    have h1 := (List.subperm_of_subset hnd (fun t ht => hsub t ht)).length_le
    show emitted.length = sections.length
    omega
  | succ fuel ih =>
    intro emitted hnd hsub hle
    have hg : greedyLex sections (fuel + 1) emitted
        = match List.insertionSort (fun a b => a ≤ b)
            (readyNodes sections emitted) with
          | [] => emitted
          | m :: _ => greedyLex sections fuel (emitted ++ [m]) := rfl
    rw [hg]
    cases hcase : List.insertionSort (fun a b => a ≤ b)
        (readyNodes sections emitted) with
    | nil =>
      have hready : readyNodes sections emitted = [] := by
        have hp := List.perm_insertionSort (fun a b => a ≤ b)
          (readyNodes sections emitted)
        rw [hcase] at hp
        exact hp.symm.eq_nil
      by_cases hlt : emitted.length < sections.length
      · obtain ⟨m, hm⟩ := readyNodes_ne_nil sections emitted hsnd hnd hsub hlt
        rw [hready] at hm
        exact absurd hm (List.not_mem_nil m)
      · have h1 := (List.subperm_of_subset hnd (fun t ht => hsub t ht)).length_le
        show emitted.length = sections.length
        omega
    | cons m rest =>
      have hmem : m ∈ readyNodes sections emitted := by
        have h := List.mem_cons_self m rest
        rw [← hcase] at h
        exact (List.perm_insertionSort _ _).mem_iff.mp h
      obtain ⟨hms, hmnr, -⟩ := (mem_readyNodes_iff _ _ _).mp hmem
      refine ih (emitted ++ [m]) ?_ ?_ ?_
      · refine List.Nodup.append hnd (List.nodup_singleton m) ?_
        intro t htr hts
        rw [List.mem_singleton] at hts
        rw [hts] at htr
        exact hmnr htr
      · intro t ht
        rcases List.mem_append.mp ht with h | h
        · exact hsub t h
        · rw [List.mem_singleton] at h
          rw [h]; exact hms
      · rw [List.length_append, List.length_singleton]
        omega

theorem getD_append_cons {α : Type} :
    ∀ (l1 : List α) (m : α) (l2 : List α) (d : α),
      (l1 ++ m :: l2).getD l1.length d = m := by
  intro l1
  induction l1 with
  | nil => intro m l2 d; rfl
  | cons a t ih => intro m l2 d; exact ih m l2 d

/-- Trace property of the greedy schedule: past the initial segment, the
element at every position is the lexicographically least section that is
ready after the preceding positions. -/
theorem greedyLex_trace (sections : List String) :
    ∀ (fuel : Nat) (emitted : List String),
      (∃ tail, greedyLex sections fuel emitted = emitted ++ tail)
      ∧ (∀ i, emitted.length ≤ i →
          i < (greedyLex sections fuel emitted).length →
          ((greedyLex sections fuel emitted).getD i ""
              ∈ readyNodes sections ((greedyLex sections fuel emitted).take i)
            ∧ ∀ t ∈ readyNodes sections
                ((greedyLex sections fuel emitted).take i),
                (greedyLex sections fuel emitted).getD i "" ≤ t)) := by
  intro fuel
  induction fuel with
  | zero =>
    intro emitted
    refine ⟨⟨[], (List.append_nil emitted).symm⟩, ?_⟩
    intro i h1 h2
    have hz : greedyLex sections 0 emitted = emitted := rfl
    rw [hz] at h2
    omega
  | succ fuel ih =>
    intro emitted
    have hg : greedyLex sections (fuel + 1) emitted
        = match List.insertionSort (fun a b => a ≤ b)
            (readyNodes sections emitted) with
          | [] => emitted
          | m :: _ => greedyLex sections fuel (emitted ++ [m]) := rfl
    cases hcase : List.insertionSort (fun a b => a ≤ b)
        (readyNodes sections emitted) with
    | nil =>
      have hred : greedyLex sections (fuel + 1) emitted = emitted := by
        rw [hg, hcase]
      rw [hred]
      refine ⟨⟨[], (List.append_nil emitted).symm⟩, ?_⟩
      intro i h1 h2
      omega
    | cons m rest =>
      have hred : greedyLex sections (fuel + 1) emitted
          = greedyLex sections fuel (emitted ++ [m]) := by
        rw [hg, hcase]
      rw [hred]
      obtain ⟨⟨tail, htail⟩, htrace⟩ := ih (emitted ++ [m])
      have hmem : m ∈ readyNodes sections emitted := by
        have h := List.mem_cons_self m rest
        rw [← hcase] at h
        exact (List.perm_insertionSort _ _).mem_iff.mp h
      have hout : greedyLex sections fuel (emitted ++ [m])
          = emitted ++ m :: tail := by
        rw [htail, List.append_assoc]
        rfl
      constructor
      · exact ⟨m :: tail, hout⟩
      · intro i h1 h2
        by_cases hieq : i = emitted.length
        · rw [hieq, hout, getD_append_cons, List.take_left]
          constructor
          · exact hmem
          · intro t ht
            have htsort : t ∈ m :: rest := by
              rw [← hcase]
              exact (List.perm_insertionSort _ _).mem_iff.mpr ht
            have hsorted := List.sorted_insertionSort (fun a b => a ≤ b)
              (readyNodes sections emitted)
            rw [hcase] at hsorted
            rcases List.mem_cons.mp htsort with h | h
            · rw [h]
            · exact (List.pairwise_cons.mp hsorted).1 t h
        · have h1' : (emitted ++ [m]).length ≤ i := by
            rw [List.length_append, List.length_singleton]
            omega
          exact htrace i h1' h2

theorem remDeg_nil (sections : List String) (t : String) :
    remDeg sections [] t = inDegreeInit sections t := by
  unfold remDeg inDegreeInit
  refine congrArg List.length (List.filter_congr (fun d _ => ?_))
  cases h : sections.contains d <;> simp [h]

/-- The whole Kahn run equals the greedy reference schedule: the initial
queue, in-degrees and empty result satisfy the loop invariants, and the
loop always emits everything, so the cycle fallback branch is not taken. -/
theorem topological_sort_eq_greedy (sections : List String)
    (hsnd : sections.Nodup) :
    topological_sort_sections sections
      = greedyLex sections sections.length [] := by
  have hqiff0 : ∀ t, t ∈ sections.filter
      (fun t => inDegreeInit sections t == 0)
      ↔ t ∈ readyNodes sections [] := by
    intro t
    rw [List.mem_filter, mem_readyNodes_iff, remDeg_nil]
    constructor
    · rintro ⟨hts, hz⟩
      rw [beq_iff_eq] at hz
      exact ⟨hts, List.not_mem_nil t, hz⟩
    · rintro ⟨hts, -, hz⟩
      exact ⟨hts, by rw [beq_iff_eq]; exact hz⟩
  have hin0 : ∀ t ∈ sections,
      ((inDegreeInit sections t : Int))
        = (remDeg sections [] t : Int) := by
    intro t _
    rw [remDeg_nil]
  have hloop := kahnLoop_eq_greedy sections hsnd sections.length
    (sections.filter (fun t => inDegreeInit sections t == 0))
    (fun t => (inDegreeInit sections t : Int)) []
    (hsnd.filter _) hqiff0 hin0
    (fun t ht => absurd ht (List.not_mem_nil t))
    List.nodup_nil
    (fun t ht => absurd ht (List.not_mem_nil t))
  have hlen := greedyLex_length sections hsnd sections.length []
    List.nodup_nil (fun t ht => absurd ht (List.not_mem_nil t)) (by simp)
  have hts : topological_sort_sections sections
      = (if (kahnLoop sections sections.length
              (sections.filter (fun t => inDegreeInit sections t == 0))
              (fun t => (inDegreeInit sections t : Int)) []).length
            == sections.length
         then kahnLoop sections sections.length
              (sections.filter (fun t => inDegreeInit sections t == 0))
              (fun t => (inDegreeInit sections t : Int)) []
         else kahnLoop sections sections.length
              (sections.filter (fun t => inDegreeInit sections t == 0))
              (fun t => (inDegreeInit sections t : Int)) []
            ++ sections.filter
                (fun s => !((kahnLoop sections sections.length
                  (sections.filter (fun t => inDegreeInit sections t == 0))
                  (fun t => (inDegreeInit sections t : Int)) []).contains s))) := rfl
  rw [hts, hloop, if_pos (by rw [beq_iff_eq]; exact hlen)]

theorem getD_indexOf_self :
    ∀ (l : List String) (a : String), a ∈ l →
      l.getD (l.indexOf a) "" = a := by
  intro l
  induction l with
  | nil => intro a h; exact absurd h (List.not_mem_nil a)
  | cons b t ih =>
    intro a h
    by_cases hab : a = b
    · rw [hab, List.indexOf_cons_self]
      rfl
    · have hat : a ∈ t := by
        rcases List.mem_cons.mp h with h1 | h1
        · exact absurd h1 hab
        · exact h1
      rw [List.indexOf_cons_ne t (fun h' => hab h'.symm)]
      exact ih a hat

theorem indexOf_lt_of_mem_take :
    ∀ (l : List String) (i : Nat) (p : String),
      p ∈ l.take i → l.indexOf p < i := by
  intro l
  induction l with
  | nil =>
    intro i p h
    rw [List.take_nil] at h
    exact absurd h (List.not_mem_nil p)
  | cons a t ih =>
    intro i p h
    cases i with
    | zero =>
      rw [List.take_zero] at h
      exact absurd h (List.not_mem_nil p)
    | succ i' =>
      rw [List.take_succ_cons] at h
      by_cases hpa : p = a
      · rw [hpa, List.indexOf_cons_self]
        omega
      · have hpt : p ∈ t.take i' := by
          rcases List.mem_cons.mp h with h1 | h1
          · exact absurd h1 hpa
          · exact h1
        rw [List.indexOf_cons_ne t (fun h' => hpa h'.symm)]
        have := ih i' p hpt
        omega

theorem dep_mem_of_ready (sections pre : List String) (a p : String)
    (ha : a ∈ readyNodes sections pre) (hp : p ∈ depsOf a)
    (hps : p ∈ sections) : p ∈ pre := by
  rw [mem_readyNodes_iff] at ha
  obtain ⟨-, -, hz⟩ := ha
  unfold remDeg at hz
  rw [List.length_eq_zero, List.filter_eq_nil_iff] at hz
  by_contra hnp
  refine hz p (List.mem_dedup.mpr hp) ?_
  rw [Bool.and_eq_true]
  refine ⟨(contains_true_iff _ _).mpr hps, ?_⟩
  rw [Bool.not_eq_true']
  exact (contains_false_iff _ _).mpr hnp

/-- **C2.** For any duplicate-free input list of section ids,
`topological_sort_sections` emits an ordering in which (i) every declared
prerequisite of a section that is itself in the input appears strictly
earlier than that section; (ii) exactly the input ids appear, each once,
so every input id is in the output; and (iii) at every position the
emitted id is the lexicographically smallest among the sections whose
in-input prerequisites are all already emitted — the tie-break among
ready (zero remaining in-degree) nodes.  Because the static dependency
table is acyclic (witnessed by `sectionRank`), the loop always emits all
nodes and the cycle/dangling fallback branch is never exercised. -/
theorem topological_sort_sections_spec (sections : List String)
    (hsnd : sections.Nodup) :
    (∀ a ∈ sections, ∀ p ∈ depsOf a, p ∈ sections →
        (topological_sort_sections sections).indexOf p
          < (topological_sort_sections sections).indexOf a)
    ∧ (∀ t, t ∈ topological_sort_sections sections ↔ t ∈ sections)
    ∧ (topological_sort_sections sections).Nodup
    ∧ (topological_sort_sections sections).length = sections.length
    ∧ (∀ i, i < (topological_sort_sections sections).length →
        (topological_sort_sections sections).getD i ""
            ∈ readyNodes sections
                ((topological_sort_sections sections).take i)
        ∧ ∀ t ∈ readyNodes sections
              ((topological_sort_sections sections).take i),
            (topological_sort_sections sections).getD i "" ≤ t) := by
  have heq := topological_sort_eq_greedy sections hsnd
  obtain ⟨hnodup, hsub⟩ := greedyLex_nodup_sub sections sections.length []
    List.nodup_nil (fun t ht => absurd ht (List.not_mem_nil t))
  have hlen := greedyLex_length sections hsnd sections.length []
    List.nodup_nil (fun t ht => absurd ht (List.not_mem_nil t)) (by simp)
  have hperm : (greedyLex sections sections.length []).Perm sections :=
    (List.subperm_of_subset hnodup (fun t ht => hsub t ht)).perm_of_length_le
      hlen.ge
  have hmemiff : ∀ t, t ∈ greedyLex sections sections.length []
      ↔ t ∈ sections := fun t => hperm.mem_iff
  have htrace := (greedyLex_trace sections sections.length []).2
  rw [heq]
  refine ⟨?_, hmemiff, hnodup, hlen, fun i hi => htrace i (Nat.zero_le i) hi⟩
  intro a ha p hp hps
  have haout : a ∈ greedyLex sections sections.length [] :=
    (hmemiff a).mpr ha
  have hipos : (greedyLex sections sections.length []).indexOf a
      < (greedyLex sections sections.length []).length :=
    List.indexOf_lt_length.mpr haout
  obtain ⟨hready, -⟩ := htrace ((greedyLex sections sections.length []).indexOf a)
    (Nat.zero_le _) hipos
  rw [getD_indexOf_self (greedyLex sections sections.length []) a haout]
    at hready
  have hptake : p ∈ (greedyLex sections sections.length []).take
      ((greedyLex sections sections.length []).indexOf a) :=
    dep_mem_of_ready sections _ a p hready hp hps
  exact indexOf_lt_of_mem_take (greedyLex sections sections.length [])
    ((greedyLex sections sections.length []).indexOf a) p hptake

theorem topological_sort_sections_spec_witness :
    (["2.5.2", "2.5.1"] : List String).Nodup
    ∧ (topological_sort_sections ["2.5.2", "2.5.1"]).Nodup :=
  ⟨by decide,
   (topological_sort_sections_spec ["2.5.2", "2.5.1"] (by decide)).2.2.1⟩
